import Mathlib

/-!
Verification of the MySQL-migration-tools dump post-processor.

This file embeds, as executable Lean definitions over lists of characters,
the core of the Python sources:

  * src/bash/post-process-dump.py          (the post-process variant)
  * src/bash/strip-mysql-compatibility-comments.py
  * src/strip-mysql-compatibility-comments.py  (the root variant)

covering the versioned-comment scanner `find_conditional_end`, the
stream driver `process_dump_stream` with its unwrap / keep decision and
semicolon-reattachment branch, the `write_out` rewrite pipeline
(time-zone normalization and optional DROP suppression), and the
CREATE TABLE augmentation `enhance_create_table`.

Conventions: text is `List Char`.  The program reads its input in text
mode with universal newlines, so the stream seen by the code contains
no carriage returns; `readline` splits on the newline character only.
Python `str.splitlines` is embedded with its larger boundary set where
the source calls it.  Character classes are embedded at their ASCII
meaning, which is exact on the dump inputs the program is specified
over.
-/

set_option maxRecDepth 10000

namespace MigTools

abbrev Cs := List Char

/-- Python whitespace class (ASCII part of the regex class \s and of
`str.strip`). -/
def isSpaceC (c : Char) : Bool :=
  c = ' ' || c = '\t' || c = '\n' || c = '\r' || c = Char.ofNat 11 || c = Char.ofNat 12

/-- Word character for the regex word-boundary: letters, digits, underscore. -/
def isWordC (c : Char) : Bool :=
  c.isAlpha || c.isDigit || c = '_'

/-- The single-quote character, written by code point. -/
def squo : Char := Char.ofNat 39

/-- The double-quote character, written by code point. -/
def dquo : Char := Char.ofNat 34

/-- ASCII-case-insensitive character comparison (Python re.IGNORECASE). -/
def ciEq (a b : Char) : Bool := a.toLower = b.toLower

/-- Case-insensitive literal match at the front: returns the rest on success. -/
def stripCI : Cs → Cs → Option Cs
  | [], s => some s
  | _ :: _, [] => none
  | p :: ps, c :: cs => if ciEq c p then stripCI ps cs else none

/-- Sum of lengths of a list of strings. -/
def sumLen (ls : List Cs) : Nat := ls.foldr (fun l n => l.length + n) 0

/-- Concatenation of a list of strings. -/
def joinL (ls : List Cs) : Cs := ls.foldr (. ++ .) []

/-- Substring test: does `pat` occur contiguously inside `s`? -/
def containsSub (pat : Cs) : Cs → Bool
  | [] => decide (pat = [])
  | c :: cs => pat.isPrefixOf (c :: cs) || containsSub pat cs

/-- Python `str.rstrip()`: drop trailing whitespace. -/
def rstripC (s : Cs) : Cs := (s.reverse.dropWhile isSpaceC).reverse

/-- Trailing whitespace run of a string (regex (\s*)\Z). -/
def trailWS (s : Cs) : Cs := (s.reverse.takeWhile isSpaceC).reverse

/-- Value of a digit string, as produced by Python int() on it. -/
def natOfDigits (s : Cs) : Nat := s.foldl (fun n c => n * 10 + (c.toNat - 48)) 0

/-- Line splitting as performed by repeated `readline` on the decoded
stream: pieces end with the newline character, a final piece may not. -/
def splitLines : Cs → List Cs
  | [] => []
  | c :: cs =>
    if c = '\n' then ['\n'] :: splitLines cs
    else
      match splitLines cs with
      | [] => [[c]]
      | l :: ls => (c :: l) :: ls

/-- Python line-boundary characters for `str.splitlines` beyond newline. -/
def isPyBreak (c : Char) : Bool :=
  c = '\n' || c = '\r' || c = Char.ofNat 11 || c = Char.ofNat 12 ||
  c = Char.ofNat 28 || c = Char.ofNat 29 || c = Char.ofNat 30 ||
  c = Char.ofNat 133 || c = Char.ofNat 8232 || c = Char.ofNat 8233

/-- Python `str.splitlines(keepends=True)`. -/
def splitLinesPy : Cs → List Cs
  | [] => []
  | '\r' :: '\n' :: cs => ['\r', '\n'] :: splitLinesPy cs
  | c :: cs =>
    if isPyBreak c then [c] :: splitLinesPy cs
    else
      match splitLinesPy cs with
      | [] => [[c]]
      | l :: ls => (c :: l) :: ls

/-! ## The comment scanner, `find_conditional_end`

Embedding of `find_conditional_end` from src/bash/post-process-dump.py
(identical in the other two variants).  The index walk
`while k < n - 1` advances one character at a time except after a
recognized open or close marker, where it advances two.  -/

/-- The depth-tracking scan of the source: from the current suffix,
an open marker raises depth, a close marker at depth zero ends the scan
with the current index, a close marker at positive depth lowers depth.
The loop stops without a result when fewer than two characters remain. -/
def scanFrom (depth k : Nat) : Cs → Option Nat
  | [] => none
  | [_] => none
  | c1 :: c2 :: rest =>
    if c1 = '/' ∧ c2 = '*' then scanFrom (depth + 1) (k + 2) rest
    else if c1 = '*' ∧ c2 = '/' then
      if depth = 0 then some k else scanFrom (depth - 1) (k + 2) rest
    else scanFrom depth (k + 1) (c2 :: rest)

/-- Length of the maximal digit run at the front (the j loop). -/
def digitRun : Cs → Nat
  | [] => 0
  | c :: cs => if c.isDigit then digitRun cs + 1 else 0

/-- `find_conditional_end(comment)`: the pair (end_pos, digits_end).
The first component is the index where the closing marker of the
versioned block starts, if found; the second is the index right after
the version digit run.  Both are None when the marker has no digits. -/
def find_conditional_end (s : Cs) : Option Nat × Option Nat :=
  if digitRun (s.drop 3) = 0 then (none, none)
  else (scanFrom 0 (3 + digitRun (s.drop 3)) (s.drop (3 + digitRun (s.drop 3))),
        some (3 + digitRun (s.drop 3)))

/-! ## Time-zone rewrite, `replace_utc_time_zone`

Embedding of TIME_ZONE_UTC_RE and its substitution: the pattern
(with multiline and ignore-case flags) is
line-start, group 1 = whitespace, SET, whitespace (one or more),
time_zone, whitespace, equals sign, whitespace; group 2 = a single or
double quote; UTC; the same quote; group 3 = the rest of the line.
The replacement keeps groups 1 and 3 and writes +00:00 between single
quotes.  The substitution scans left to right, line-start anchored. -/

/-- Case-insensitive literal match keeping the original spelling:
returns (matched text, rest). -/
def stripCIKeep : Cs → Cs → Option (Cs × Cs)
  | [], s => some ([], s)
  | _ :: _, [] => none
  | p :: ps, c :: cs =>
    if ciEq c p then
      match stripCIKeep ps cs with
      | some (m, r) => some (c :: m, r)
      | none => none
    else none

/-- Attempt the TIME_ZONE_UTC_RE match at a line start; on success
return the replacement text and the rest of the input after the match. -/
def tzMatch (s : Cs) : Option (Cs × Cs) :=
  let w1 := s.takeWhile isSpaceC
  let r1 := s.dropWhile isSpaceC
  match stripCIKeep (("SET").data) r1 with
  | none => none
  | some (setT, r2) =>
    let w2 := r2.takeWhile isSpaceC
    let r3 := r2.dropWhile isSpaceC
    if w2 = [] then none else
    match stripCIKeep (("time_zone").data) r3 with
    | none => none
    | some (tzT, r4) =>
      let w3 := r4.takeWhile isSpaceC
      match r4.dropWhile isSpaceC with
      | '=' :: r6 =>
        let w4 := r6.takeWhile isSpaceC
        match r6.dropWhile isSpaceC with
        | q :: r8 =>
          if q = squo || q = dquo then
            match stripCIKeep (("UTC").data) r8 with
            | none => none
            | some (_, r9) =>
              match r9 with
              | q2 :: r10 =>
                if q2 = q then
                  let g3 := r10.takeWhile (fun c => c ≠ '\n')
                  let rest := r10.dropWhile (fun c => c ≠ '\n')
                  some (w1 ++ setT ++ w2 ++ tzT ++ w3 ++ '=' :: w4 ++
                        squo :: ("+00:00").data ++ [squo] ++ g3, rest)
                else none
              | [] => none
          else none
        | [] => none
      | _ => none

/-- Left-to-right substitution driver: attempt the pattern at every
line start, copy elsewhere. -/
def tzSubGo : Nat → Bool → Cs → Cs
  | 0, _, s => s
  | _ + 1, _, [] => []
  | f + 1, atLS, c :: cs =>
    if atLS then
      match tzMatch (c :: cs) with
      | some (rep, rest) => rep ++ tzSubGo f false rest
      | none => c :: tzSubGo f (c = '\n') cs
    else c :: tzSubGo f (c = '\n') cs

/-- `replace_utc_time_zone(text)`. -/
def tzSub (s : Cs) : Cs := tzSubGo (s.length + 1) true s

/-! ## DROP statement detection (DROP_STMT_RE, VERSIONED_DROP_STMT_RE)
and the line filter of `write_out` under the no-drop option. -/

/-- DROP followed by a word boundary, at the start of the (stripped) line. -/
def dropMatch (s : Cs) : Bool :=
  match stripCI (("DROP").data) s with
  | some [] => true
  | some (c :: _) => !isWordC c
  | none => false

/-- The versioned form: marker, one or more digits, whitespace, DROP. -/
def vdropMatch : Cs → Bool
  | '/' :: '*' :: '!' :: r =>
    if digitRun r = 0 then false
    else dropMatch ((r.dropWhile Char.isDigit).dropWhile isSpaceC)
  | _ => false

/-- Keep a line unless its stripped form starts a DROP statement. -/
def keepLine (l : Cs) : Bool :=
  let st := l.dropWhile isSpaceC
  if st = [] then true else !(vdropMatch st || dropMatch st)

/-- The no-drop filtering of a chunk in `write_out`. -/
def dropFilter (chunk : Cs) : Cs :=
  joinL ((splitLinesPy chunk).filter keepLine)

/-! ## CREATE TABLE detection and augmentation, `enhance_create_table`

Embedding of USE_DB_RE, CREATE_TABLE_RE, ENGINE_LINE_RE, DROP_VIEW_RE,
the last-line token augmentation of the post-process / bash variants
(only adding absent tokens), the last-line rebuild of the root variant,
and the line-state machine around them. -/

/-- USE_DB_RE: line-anchored USE, then a backquoted name, then a
semicolon; returns the captured name. -/
def useMatch (l : Cs) : Option Cs :=
  match stripCI (("USE").data) (l.dropWhile isSpaceC) with
  | none => none
  | some r1 =>
    if r1.takeWhile isSpaceC = [] then none else
    match r1.dropWhile isSpaceC with
    | '`' :: r3 =>
      let nm := r3.takeWhile (fun c => c ≠ '`')
      if nm = [] then none else
      match r3.dropWhile (fun c => c ≠ '`') with
      | '`' :: ';' :: _ => some nm
      | _ => none
    | _ => none

/-- Backquoted capture used by CREATE_TABLE_RE and DROP_VIEW_RE. -/
def backTickName (r : Cs) : Option Cs :=
  match r with
  | '`' :: r3 =>
    let nm := r3.takeWhile (fun c => c ≠ '`')
    if nm = [] then none else
    match r3.dropWhile (fun c => c ≠ '`') with
    | '`' :: _ => some nm
    | _ => none
  | _ => none

/-- Backquoted capture requiring a following semicolon (DROP_VIEW_RE). -/
def backTickNameSemi (r : Cs) : Option Cs :=
  match r with
  | '`' :: r3 =>
    let nm := r3.takeWhile (fun c => c ≠ '`')
    if nm = [] then none else
    match r3.dropWhile (fun c => c ≠ '`') with
    | '`' :: ';' :: _ => some nm
    | _ => none
  | _ => none

/-- One keyword followed by mandatory whitespace. -/
def kwWS (kw : Cs) (r : Cs) : Option Cs :=
  match stripCI kw r with
  | none => none
  | some r1 =>
    if r1.takeWhile isSpaceC = [] then none
    else some (r1.dropWhile isSpaceC)

/-- CREATE_TABLE_RE: CREATE, TABLE, an optional IF NOT EXISTS group,
then the backquoted table name. -/
def createMatch (l : Cs) : Option Cs :=
  match kwWS (("CREATE").data) (l.dropWhile isSpaceC) with
  | none => none
  | some r2 =>
    match kwWS (("TABLE").data) r2 with
    | none => none
    | some r4 =>
      let afterOpt :=
        match kwWS (("IF").data) r4 with
        | none => none
        | some a1 =>
          match kwWS (("NOT").data) a1 with
          | none => none
          | some a2 => kwWS (("EXISTS").data) a2
      match afterOpt with
      | some r5 => backTickName r5
      | none => backTickName r4

/-- DROP_VIEW_RE: DROP, VIEW, IF, EXISTS, then a backquoted name and a
semicolon. -/
def dropViewMatch (l : Cs) : Option Cs :=
  match kwWS (("DROP").data) (l.dropWhile isSpaceC) with
  | none => none
  | some r1 =>
    match kwWS (("VIEW").data) r1 with
    | none => none
    | some r2 =>
      match kwWS (("IF").data) r2 with
      | none => none
      | some r3 =>
        match kwWS (("EXISTS").data) r3 with
        | none => none
        | some r4 => backTickNameSemi r4

/-- ENGINE_LINE_RE at one position: a closing parenthesis, whitespace
(one or more), ENGINE, whitespace, equals sign. -/
def engineLineAt : Cs → Bool
  | ')' :: r =>
    if r.takeWhile isSpaceC = [] then false else
    match stripCI (("ENGINE").data) (r.dropWhile isSpaceC) with
    | some r2 =>
      match r2.dropWhile isSpaceC with
      | '=' :: _ => true
      | _ => false
    | none => false
  | _ => false

/-- ENGINE_LINE_RE as a search over the line. -/
def engineLineSearch : Cs → Bool
  | [] => false
  | c :: cs => engineLineAt (c :: cs) || engineLineSearch cs

/-- TOKEN=: the token word, whitespace, equals sign (for ENGINE,
ROW_FORMAT, COLLATE). -/
def wordTokAt (tok : Cs) (s : Cs) : Bool :=
  match stripCI tok s with
  | some r =>
    match r.dropWhile isSpaceC with
    | '=' :: _ => true
    | _ => false
  | none => false

/-- Two words separated by whitespace, then an equals sign (for
DEFAULT CHARSET). -/
def twoTokAt (t1 t2 : Cs) (s : Cs) : Bool :=
  match stripCI t1 s with
  | some r =>
    if r.takeWhile isSpaceC = [] then false else
    match stripCI t2 (r.dropWhile isSpaceC) with
    | some r2 =>
      match r2.dropWhile isSpaceC with
      | '=' :: _ => true
      | _ => false
    | none => false
  | none => false

/-- Regex search with a word boundary before the match position. -/
def searchTokAux (p : Cs → Bool) : Bool → Cs → Bool
  | _, [] => false
  | prevW, c :: cs => (!prevW && p (c :: cs)) || searchTokAux p (isWordC c) cs

/-- Word-boundary-anchored search from the string start. -/
def searchTok (p : Cs → Bool) (s : Cs) : Bool := searchTokAux p false s

def hasEngineTok (rest : Cs) : Bool := searchTok (wordTokAt (("ENGINE").data)) rest
def hasRowFmtTok (rest : Cs) : Bool := searchTok (wordTokAt (("ROW_FORMAT").data)) rest
def hasDefCharsetTok (rest : Cs) : Bool :=
  searchTok (twoTokAt (("DEFAULT").data) (("CHARSET").data)) rest
def hasCollateTok (rest : Cs) : Bool := searchTok (wordTokAt (("COLLATE").data)) rest

/-- Charset derived from a collation name: the part before the first
underscore. -/
def charsetOf (coll : Cs) : Cs := coll.takeWhile (fun c => c ≠ '_')

/-- The newline detected at the end of the token part of the last line. -/
def nlOf (rest : Cs) : Cs :=
  match rest.reverse with
  | '\n' :: '\r' :: _ => ['\r', '\n']
  | '\n' :: _ => ['\n']
  | _ => []

/-- The token part without its detected newline. -/
def coreOf (rest : Cs) : Cs := rest.take (rest.length - (nlOf rest).length)

/-- Index of the last occurrence of a character (str.rfind). -/
def rfindIdx (c0 : Char) (s : Cs) : Option Nat :=
  match s.reverse.findIdx? (fun c => c = c0) with
  | some i => some (s.length - 1 - i)
  | none => none

/-- The additions computed by the post-process variant: each of the
four options that is absent from the token part, in source order. -/
def addsOf (engine : Cs) (rowfmt : Option Cs) (coll : Cs) (rest : Cs) : Cs :=
  (if hasEngineTok rest then [] else (" ENGINE=").data ++ engine) ++
  (match rowfmt with
   | some rf => if hasRowFmtTok rest then [] else (" ROW_FORMAT=").data ++ rf
   | none => []) ++
  (if hasDefCharsetTok rest then [] else (" DEFAULT CHARSET=").data ++ charsetOf coll) ++
  (if hasCollateTok rest then [] else (" COLLATE=").data ++ coll)

/-- Last-line augmentation of the post-process / bash variants
(src/bash/post-process-dump.py lines 413-474): split at the first
closing parenthesis, compute the missing tokens, and insert them
before the final semicolon of the token part, or append them. -/
def augLast (engine : Cs) (rowfmt : Option Cs) (coll : Cs) (L : Cs) : Cs :=
  match L.findIdx? (fun c => c = ')') with
  | none => L
  | some cIdx =>
    let pre := L.take cIdx
    let rest := L.drop (cIdx + 1)
    let adds := addsOf engine rowfmt coll rest
    let nl := nlOf rest
    let core := coreOf rest
    let newCore :=
      if (rstripC core).getLast? == some ';' then
        match rfindIdx ';' core with
        | some sp => core.take sp ++ adds ++ core.drop sp
        | none => core ++ adds
      else core ++ adds
    pre ++ ')' :: (newCore ++ nl)

/-- Full-statement augmentation of the post-process / bash variants:
replace the final line by its augmented form. -/
def aug_post (engine : Cs) (rowfmt : Option Cs) (coll : Cs) (full : Cs) : Cs :=
  let lines := splitLinesPy full
  match lines.getLast? with
  | none => full
  | some L => joinL lines.dropLast ++ augLast engine rowfmt coll L

/-- The additions the post variant computes for the whole statement:
those of its last line, when it has a closing parenthesis. -/
def lastAdds (e : Cs) (rf : Option Cs) (coll : Cs) (full : Cs) : Cs :=
  match (splitLinesPy full).getLast? with
  | none => []
  | some L =>
    match L.findIdx? (fun c => c = ')') with
    | none => []
    | some i => addsOf e rf coll (L.drop (i + 1))

/-- Last-line rebuild of the root variant
(src/strip-mysql-compatibility-comments.py lines 263-292): the whole
closing line is reconstructed from the metadata. -/
def rootLast (engine : Cs) (rowfmt : Option Cs) (coll : Cs) (L : Cs) : Cs :=
  let idxOpt := L.findIdx? (fun c => c = ')')
  let indent := match idxOpt with
    | none => []
    | some cIdx => L.take cIdx
  let newline : Cs := match idxOpt with
    | none => ['\n']
    | some _ =>
      match L.reverse with
      | '\n' :: '\r' :: _ => ['\r', '\n']
      | '\n' :: _ => ['\n']
      | _ => []
  indent ++ (") ENGINE=").data ++ engine ++
  (match rowfmt with
   | some rf => (" ROW_FORMAT=").data ++ rf
   | none => []) ++
  (" DEFAULT CHARSET=").data ++ charsetOf coll ++
  (" COLLATE=").data ++ coll ++ [';'] ++ newline

/-- Full-statement rebuild of the root variant. -/
def aug_root (engine : Cs) (rowfmt : Option Cs) (coll : Cs) (full : Cs) : Cs :=
  let lines := splitLinesPy full
  match lines.getLast? with
  | none => full
  | some L => joinL lines.dropLast ++ rootLast engine rowfmt coll L

/-! ## The line-state machine of `enhance_create_table`
(post-process variant). -/

structure TableInfo where
  engine : Option Cs
  rowFormat : Option Cs
  collation : Option Cs
deriving DecidableEq

structure CreateState where
  curSchema : Option Cs
  inCreate : Bool
  curTable : Option Cs
  buffer : Cs
  skipFor : List Cs
deriving DecidableEq

abbrev MetaTab := List (Cs × TableInfo)

def metaLookup (meta : MetaTab) (k : Cs) : Option TableInfo :=
  match meta.find? (fun p => decide (p.1 = k)) with
  | some p => some p.2
  | none => none

/-- Reset of the per-statement fields after a CREATE TABLE closes. -/
def resetCreate (st : CreateState) : CreateState :=
  { st with inCreate := false, curTable := none, buffer := [] }

/-- The statement-closing step: metadata key resolution and
augmentation, or pass-through. -/
def finishCreate (meta : MetaTab) (defSch : Option Cs) (st : CreateState)
    (full : Cs) : Cs × CreateState :=
  match st.curTable with
  | none => (full, resetCreate st)
  | some tbl =>
    if tbl ∈ st.skipFor then
      (full, { resetCreate st with skipFor := st.skipFor.erase tbl })
    else
      let schemaToUse := st.curSchema.orElse (fun _ => defSch)
      let key : Option Cs :=
        match schemaToUse with
        | some sch => some (sch ++ '.' :: tbl)
        | none =>
          let ms := (meta.map Prod.fst).filter (fun k => ('.' :: tbl).isSuffixOf k)
          match ms with
          | [k] => some k
          | _ => none
      let info := match key with
        | some k => metaLookup meta k
        | none => none
      match info with
      | none => (full, resetCreate st)
      | some i =>
        match i.engine, i.collation with
        | some e, some tc =>
          if e = [] || tc = [] then (full, resetCreate st)
          else (aug_post e i.rowFormat tc full, resetCreate st)
        | _, _ => (full, resetCreate st)

/-- One line of `enhance_create_table`. -/
def enhLine (meta : MetaTab) (defSch : Option Cs) (st : CreateState)
    (l : Cs) : Cs × CreateState :=
  let st :=
    match useMatch l with
    | some db => { st with curSchema := some db }
    | none => st
  match dropViewMatch l with
  | some nm =>
    (l, { st with skipFor := if nm ∈ st.skipFor then st.skipFor else st.skipFor ++ [nm] })
  | none =>
    if !st.inCreate then
      match createMatch l with
      | some t => ([], { st with inCreate := true, curTable := some t, buffer := l })
      | none => (l, st)
    else
      let buf := st.buffer ++ l
      if engineLineSearch l then
        finishCreate meta defSch { st with buffer := buf } buf
      else ([], { st with buffer := buf })

def enhGo (meta : MetaTab) (defSch : Option Cs) :
    CreateState → List Cs → Cs × CreateState
  | st, [] => ([], st)
  | st, l :: ls =>
    let (o, st1) := enhLine meta defSch st l
    let (os, st2) := enhGo meta defSch st1 ls
    (o ++ os, st2)

/-- `enhance_create_table(text, state, table_meta, default_schema)`:
identity when the metadata is empty, otherwise the line-state machine
over the chunk. -/
def enhance (meta : MetaTab) (defSch : Option Cs) (st0 : CreateState)
    (text : Cs) : Cs × CreateState :=
  if meta.isEmpty then (text, st0)
  else
    enhGo meta defSch
      { st0 with curSchema := st0.curSchema.orElse (fun _ => defSch) }
      (splitLinesPy text)

/-! ## The stream driver, `process_dump_stream` (post-process variant). -/

structure Config where
  thr : Nat
  noDrop : Bool
  meta : MetaTab
  defSch : Option Cs
deriving DecidableEq

/-- `write_out(chunk)`: CREATE TABLE enhancement, time-zone rewrite,
optional DROP filtering; nothing happens on an empty chunk. -/
def wout (cfg : Config) (st : CreateState) (chunk : Cs) : Cs × CreateState :=
  if chunk = [] then ([], st)
  else
    let p := enhance cfg.meta cfg.defSch st chunk
    let e2 := tzSub p.1
    if cfg.noDrop then (dropFilter e2, p.2) else (e2, p.2)

/-- Marker search: the index of the next occurrence of the
three-character versioned-comment opener at or after `pos`. -/
def isMarkerAt : Cs → Bool
  | c1 :: c2 :: c3 :: _ => c1 = '/' && c2 = '*' && c3 = '!'
  | _ => false

def findMarkerAux : Cs → Nat → Option Nat
  | [], _ => none
  | l@(_ :: rest), i => if isMarkerAt l then some i else findMarkerAux rest (i + 1)

def findMarker (line : Cs) (pos : Nat) : Option Nat :=
  findMarkerAux (line.drop pos) pos

/-- Accumulation of a versioned comment across lines: append further
input lines until the scanner finds the closing marker; at end of
input return the unterminated text. -/
inductive AccRes where
  | found : Cs → Nat → List Cs → AccRes
  | eof : Cs → AccRes
deriving DecidableEq

def accumC : List Cs → Cs → AccRes
  | [], c =>
    match (find_conditional_end c).1 with
    | some e => AccRes.found c e []
    | none => AccRes.eof c
  | l :: ls2, c =>
    match (find_conditional_end c).1 with
    | some e => AccRes.found c e (l :: ls2)
    | none => accumC ls2 (c ++ l)

/-- The semicolon-reattachment helper `_attach_leading_semicolon`. -/
def attachSemi (inner : Cs) : Cs :=
  let ws := trailWS inner
  let b := inner.take (inner.length - ws.length)
  if (rstripC b).getLast? == some ';' then inner else b ++ [';'] ++ ws

/-- Blank-line normalization after consuming the reattached semicolon. -/
def collapseBlank (inner tail : Cs) : Cs :=
  if inner.getLast? = some '\n' ∧
     ((("\n\n").data.isPrefixOf tail) ∨ (("\r\n\r\n").data.isPrefixOf tail)) then
    if ("\n\n").data.isPrefixOf tail then tail.drop 1 else tail.drop 2
  else tail

/-- One iteration of the processing loop of `process_dump_stream`,
with the continuation abstracted.  Faithful to the source, including
the final `write_out(inner)` that sits after the reattachment branches
(line 729 of the post-process variant) and the absence of any write of
`inner` when the text after the closing marker does not begin with a
semicolon. -/
def runStep (cfg : Config) (next : CreateState → Cs → Nat → List Cs → Cs)
    (st : CreateState) (line : Cs) (pos : Nat) (ls : List Cs) : Cs :=
  match findMarker line pos with
  | none =>
    let p := wout cfg st (line.drop pos)
    p.1 ++ (match ls with
      | [] => []
      | l :: ls2 => next p.2 l 0 ls2)
  | some idx =>
    if digitRun (line.drop (idx + 3)) = 0 then
      let p := wout cfg st ((line.drop pos).take (idx + 3 - pos))
      p.1 ++ next p.2 line (idx + 3) ls
    else
      match accumC ls (line.drop idx) with
      | AccRes.eof comment =>
        let p1 := wout cfg st ((line.drop pos).take (idx - pos))
        let p2 := wout cfg p1.2 comment
        p1.1 ++ p2.1
      | AccRes.found comment e ls2 =>
        let de := 3 + digitRun (comment.drop 3)
        let version := natOfDigits ((comment.drop 3).take (de - 3))
        let inner := (comment.drop de).take (e - de)
        let tail0 := comment.drop (e + 2)
        let p1 := wout cfg st ((line.drop pos).take (idx - pos))
        if version < cfg.thr then
          if tail0.head? = some ';' then
            let tail1 := tail0.drop 1
            if (rstripC inner).getLast? = some ';' then
              let tail2 := collapseBlank inner tail1
              let p2 := wout cfg p1.2 inner
              let p3 := wout cfg p2.2 inner
              p1.1 ++ p2.1 ++ p3.1 ++ next p3.2 tail2 0 ls2
            else
              let p2 := wout cfg p1.2 (attachSemi inner)
              let tail2 := collapseBlank inner tail1
              let p3 := wout cfg p2.2 inner
              p1.1 ++ p2.1 ++ p3.1 ++ next p3.2 tail2 0 ls2
          else p1.1 ++ next p1.2 tail0 0 ls2
        else
          let p2 := wout cfg p1.2 (comment.take (e + 2))
          p1.1 ++ p2.1 ++ next p2.2 tail0 0 ls2

/-- The fuel-indexed processing loop. -/
def runF (cfg : Config) : Nat → CreateState → Cs → Nat → List Cs → Cs
  | 0, _, _, _, _ => []
  | fuel + 1, st, line, pos, ls => runStep cfg (runF cfg fuel) st line pos ls

theorem runF_succ (cfg : Config) (f : Nat) (st : CreateState) (line : Cs)
    (pos : Nat) (ls : List Cs) :
    runF cfg (f + 1) st line pos ls = runStep cfg (runF cfg f) st line pos ls := rfl

/-- The fuel that always suffices: remaining characters plus remaining
lines plus one. -/
def measR (line : Cs) (pos : Nat) (ls : List Cs) : Nat :=
  (line.length - pos) + sumLen ls + ls.length + 1

def bodyLines (cfg : Config) (st : CreateState) : List Cs → Cs
  | [] => []
  | l :: ls => runF cfg (measR l 0 ls) st l 0 ls

def state0 (cfg : Config) : CreateState :=
  { curSchema := cfg.defSch, inCreate := false, curTable := none,
    buffer := [], skipFor := [] }

/-- The whole line loop of `process_dump_stream` on the decoded input
text (everything after the header and optional prefixed parts). -/
def processBody (cfg : Config) (input : Cs) : Cs :=
  bodyLines cfg (state0 cfg) (splitLines input)

/-- The fixed header written first on every run. -/
def headerCs : Cs :=
  ("-- Dump created with DB migration tools ( https://github.com/utilmind/MySQL-migration-tools )\n\n").data

/-- The optional USE lines written when a database name is given. -/
def usePart : Option Cs → Cs
  | none => []
  | some d => '\n' :: (("USE `").data) ++ d ++ ("`;\n\n").data

/-- The optional prepended file content with its separators. -/
def prependPart : Option Cs → Cs
  | none => []
  | some p =>
    if p = [] then []
    else p ++ (if p.getLast? == some '\n' || p.getLast? == some '\r' then [] else ['\n']) ++ ['\n']

/-- `process_dump_stream` output as a function of the input text:
header, optional prepended file, optional USE lines, then the
processed stream. -/
def fullProcess (cfg : Config) (dbName : Option Cs) (pre : Option Cs)
    (input : Cs) : Cs :=
  headerCs ++ prependPart pre ++ usePart dbName ++ processBody cfg input

/-- The default configuration: threshold 80000, no DROP suppression,
no metadata. -/
def cfg0 : Config := { thr := 80000, noDrop := false, meta := [], defSch := none }

/-- The no-drop configuration. -/
def cfgND : Config := { thr := 80000, noDrop := true, meta := [], defSch := none }

end MigTools


namespace MigTools

/-! ## Concrete inputs used by the claim theorems. -/

/-- An unwrapped statement whose terminating semicolon sits after the
closing marker. -/
def inReattach : Cs := ("/*!40101 SET NAMES utf8 */;\n").data

/-- The same statement without the trailing semicolon. -/
def inNoSemi : Cs := ("/*!40101 SET NAMES utf8 */\n").data

/-- A versioned comment at exactly the default threshold. -/
def inAtThreshold : Cs := ("/*!80000 CREATE TABLE x (a int) */;\n").data

/-- A dump ending inside an unterminated versioned comment. -/
def inUnterminated : Cs := ("/*!50001 ABC\n").data

/-- A dump whose last statement is a CREATE TABLE with no closing
options line. -/
def inOpenCreate : Cs := ("USE `db`;\nCREATE TABLE `t` (\n  `id` int\n").data

/-- Metadata for the single table db.t. -/
def metaDbT : MetaTab :=
  [((("db.t").data),
    { engine := some (("InnoDB").data), rowFormat := none,
      collation := some (("utf8mb4_general_ci").data) })]

/-- A configuration carrying the db.t metadata. -/
def cfgMeta : Config :=
  { thr := 80000, noDrop := false, meta := metaDbT, defSch := some (("db").data) }

/-- The guarded DROP statement followed by further text. -/
def inGuardedDrop : Cs :=
  ("/*!50001 DROP VIEW IF EXISTS `v`; */\nSELECT 1;\n").data

/-- The unguarded DROP statement followed by the same further text. -/
def inPlainDrop : Cs := ("DROP VIEW IF EXISTS `v`;\nSELECT 1;\n").data

/-- A CREATE TABLE statement whose closing line already carries ENGINE
and AUTO_INCREMENT tokens. -/
def inCreateAI : Cs :=
  ("CREATE TABLE `t` (\n  `id` int\n) ENGINE=MyISAM AUTO_INCREMENT=5;\n").data

/-! ## C1 -/

/-- C1: refuted on the code (code bug).  For a below-threshold comment
whose closing marker is followed by a semicolon, the claim says the
inner content appears exactly once with a single semicolon attached;
the stream driver instead writes the inner content a second time after
the reattachment branch, so the output duplicates the statement. -/
theorem claim_C1_reattach_duplicates :
    processBody cfg0 inReattach = (" SET NAMES utf8;  SET NAMES utf8 \n").data := by
  rfl

/-! ## C3 -/

/-- C3: refuted on the code (code bug).  A version equal to the
threshold keeps the comment verbatim as claimed, but for a version
below the threshold with no following semicolon the inner content is
not emitted at all: every write of the unwrapped content sits inside
the reattachment branch, so the statement body is dropped. -/
theorem claim_C3_unwrap_keep_decision :
    processBody cfg0 inAtThreshold = inAtThreshold ∧
    processBody cfg0 inNoSemi = ("\n").data := by
  exact ⟨rfl, rfl⟩

/-! ## C5 -/

/-- C5: refuted on the code (code bug).  An unterminated versioned
comment at end of input is flushed as claimed, but the text buffered
by the CREATE TABLE stage is not: with metadata present, a CREATE
TABLE statement whose closing options line never arrives is absent
from the output. -/
theorem claim_C5_eof_preservation :
    processBody cfg0 inUnterminated = inUnterminated ∧
    processBody cfgMeta inOpenCreate = ("USE `db`;\n").data := by
  exact ⟨rfl, rfl⟩

/-! ## C2, counterexample -/

/-- C2 counterexample: the pipeline is not idempotent; a second
application prepends the header again, so the output of the composite
differs from the single application on a one-statement input. -/
theorem claim_C2_cex :
    fullProcess cfg0 none none (fullProcess cfg0 none none (("SELECT 1;\n").data)) ≠
    fullProcess cfg0 none none (("SELECT 1;\n").data) := by
  decide

/-! ## C6, counterexample -/

/-- C6 counterexample: in the root variant the closing line is rebuilt
from metadata, so an existing AUTO_INCREMENT token is removed, against
the claim that existing tokens are never removed. -/
theorem claim_C6_cex :
    containsSub (("AUTO_INCREMENT").data) inCreateAI = true ∧
    containsSub (("AUTO_INCREMENT").data)
      (aug_root (("InnoDB").data) none (("utf8mb4_general_ci").data) inCreateAI) = false := by
  exact ⟨rfl, rfl⟩

/-! ## C8, counterexample -/

/-- C8 counterexample: with DROP suppression enabled the guarded and
unguarded forms do not leave identical residual output; the guarded
form leaves a blank line behind. -/
theorem claim_C8_cex :
    processBody cfgND inGuardedDrop ≠ processBody cfgND inPlainDrop := by
  decide

end MigTools


namespace MigTools

/-! ## C4: scanner lemmas -/

/-- Generator of arbitrarily nested plain block comments around a
marker-free core. -/
def nest : Nat → Cs → Cs
  | 0, w => w
  | m + 1, w => '/' :: '*' :: (nest m w ++ ['*', '/'])

theorem nest_length_succ (m : Nat) (w : Cs) :
    (nest (m + 1) w).length = (nest m w).length + 4 := by
  show ('/' :: '*' :: (nest m w ++ ['*', '/'])).length = _
  simp

theorem containsSub_cons (pat : Cs) (c : Char) (cs : Cs) :
    containsSub pat (c :: cs) = (pat.isPrefixOf (c :: cs) || containsSub pat cs) := rfl

theorem containsSub_tail (pat : Cs) (c : Char) (cs : Cs)
    (h : containsSub pat cs = true) : containsSub pat (c :: cs) = true := by
  rw [containsSub_cons, h, Bool.or_true]

/-- Marker-free text is crossed one character at a time. -/
theorem scanFrom_shift (u : Cs) (hu : ∀ c ∈ u, c ≠ '/' ∧ c ≠ '*') :
    ∀ v, v ≠ [] → ∀ d k, scanFrom d k (u ++ v) = scanFrom d (k + u.length) v := by
  induction u with
  | nil => intro v _ d k; simp
  | cons c u2 ih =>
    intro v hv d k
    have hc := hu c (by simp)
    have hne : u2 ++ v ≠ [] := by
      intro h
      rcases List.append_eq_nil.mp h with ⟨_, h2⟩
      exact hv h2
    obtain ⟨c2, t, ht⟩ : ∃ c2 t, u2 ++ v = c2 :: t := by
      cases h : u2 ++ v with
      | nil => exact absurd h hne
      | cons a b => exact ⟨a, b, rfl⟩
    have step : scanFrom d k (c :: u2 ++ v) = scanFrom d (k + 1) (u2 ++ v) := by
      rw [List.cons_append, ht]
      show scanFrom d k (c :: c2 :: t) = scanFrom d (k + 1) (c2 :: t)
      simp only [scanFrom]
      rw [if_neg (by simp [hc.1]), if_neg (by simp [hc.2])]
    rw [step]
    have h2 := ih (fun c h => hu c (by simp [h])) v hv d (k + 1)
    rw [h2]
    congr 1
    simp
    omega

/-- Crossing a nested block: the scan closes at depth zero exactly at
the end of the generated block. -/
theorem scanFrom_nest (w : Cs) (hw : ∀ c ∈ w, c ≠ '/' ∧ c ≠ '*') :
    ∀ m rest d k, scanFrom d k (nest m w ++ '*' :: '/' :: rest)
      = if d = 0 then some (k + (nest m w).length)
        else scanFrom (d - 1) (k + (nest m w).length + 2) rest := by
  intro m
  induction m with
  | zero =>
    intro rest d k
    have h1 : scanFrom d k (nest 0 w ++ '*' :: '/' :: rest)
        = scanFrom d (k + w.length) ('*' :: '/' :: rest) := by
      simpa [nest] using scanFrom_shift w hw ('*' :: '/' :: rest) (by simp) d k
    rw [h1]
    show (if ('*' : Char) = '/' ∧ ('/' : Char) = '*' then _
          else if ('*' : Char) = '*' ∧ ('/' : Char) = '/' then
            if d = 0 then some (k + w.length) else scanFrom (d - 1) (k + w.length + 2) rest
          else _) = _
    rw [if_neg (by simp), if_pos (by simp)]
    simp [nest]
  | succ m ih =>
    intro rest d k
    have hshape : nest (m + 1) w ++ '*' :: '/' :: rest
        = '/' :: '*' :: (nest m w ++ '*' :: '/' :: ('*' :: '/' :: rest)) := by
      simp [nest]
    rw [hshape]
    show (if ('/' : Char) = '/' ∧ ('*' : Char) = '*' then
          scanFrom (d + 1) (k + 2) (nest m w ++ '*' :: '/' :: ('*' :: '/' :: rest))
          else _) = _
    rw [if_pos (by simp)]
    rw [ih ('*' :: '/' :: rest) (d + 1) (k + 2)]
    rw [if_neg (by omega)]
    have hmid : scanFrom (d + 1 - 1) (k + 2 + (nest m w).length + 2) ('*' :: '/' :: rest)
        = if d = 0 then some (k + 2 + (nest m w).length + 2)
          else scanFrom (d - 1) (k + 2 + (nest m w).length + 2 + 2) rest := by
      show (if ('*' : Char) = '/' ∧ ('/' : Char) = '*' then _
            else if ('*' : Char) = '*' ∧ ('/' : Char) = '/' then
              if d + 1 - 1 = 0 then some (k + 2 + (nest m w).length + 2)
              else scanFrom (d + 1 - 1 - 1) (k + 2 + (nest m w).length + 2 + 2) rest
            else _) = _
      rw [if_neg (by simp), if_pos (by simp)]
      simp
    rw [hmid]
    have hlen := nest_length_succ m w
    rcases Nat.eq_zero_or_pos d with h0 | hpos
    · subst h0
      rw [if_pos rfl, if_pos rfl]
      congr 1
      omega
    · rw [if_neg (by omega), if_neg (by omega)]
      congr 1
      omega

/-- A successful scan certifies that a closing marker occurs in the
scanned text. -/
theorem scanFrom_some_hasClose_n :
    ∀ n t d k e, t.length ≤ n → scanFrom d k t = some e →
      containsSub ('*' :: ['/']) t = true := by
  intro n
  induction n with
  | zero =>
    intro t d k e hlen h
    have : t = [] := List.length_eq_zero.mp (Nat.le_zero.mp hlen)
    subst this
    simp [scanFrom] at h
  | succ n ih =>
    intro t d k e hlen h
    match t with
    | [] => simp [scanFrom] at h
    | [c] => simp [scanFrom] at h
    | c1 :: c2 :: rest =>
      by_cases h1 : c1 = '/' ∧ c2 = '*'
      · have h3 : scanFrom (d + 1) (k + 2) rest = some e := by
          have : scanFrom d k (c1 :: c2 :: rest)
              = scanFrom (d + 1) (k + 2) rest := by
            simp only [scanFrom]; rw [if_pos h1]
          rw [this] at h; exact h
        have hr : containsSub ('*' :: ['/']) rest = true := by
          apply ih rest (d + 1) (k + 2) e _ h3
          simp at hlen; omega
        exact containsSub_tail _ _ _ (containsSub_tail _ _ _ hr)
      · by_cases h2 : c1 = '*' ∧ c2 = '/'
        · rw [containsSub_cons]
          have : ('*' :: ['/']).isPrefixOf (c1 :: c2 :: rest) = true := by
            simp [List.isPrefixOf, h2.1, h2.2]
          rw [this, Bool.true_or]
        · have h3 : scanFrom d (k + 1) (c2 :: rest) = some e := by
            have : scanFrom d k (c1 :: c2 :: rest)
                = scanFrom d (k + 1) (c2 :: rest) := by
              simp only [scanFrom]; rw [if_neg h1, if_neg h2]
            rw [this] at h; exact h
          have hr : containsSub ('*' :: ['/']) (c2 :: rest) = true := by
            apply ih (c2 :: rest) d (k + 1) e _ h3
            simp at hlen ⊢; omega
          exact containsSub_tail _ _ _ hr

theorem scanFrom_some_hasClose (t : Cs) (d k e : Nat)
    (h : scanFrom d k t = some e) : containsSub ('*' :: ['/']) t = true :=
  scanFrom_some_hasClose_n t.length t d k e (Nat.le_refl _) h

/-- Containment is preserved when characters are dropped in front. -/
theorem containsSub_of_drop (pat : Cs) :
    ∀ n s, containsSub pat (s.drop n) = true → containsSub pat s = true := by
  intro n
  induction n with
  | zero => intro s h; simpa using h
  | succ n ih =>
    intro s h
    cases s with
    | nil => simpa using h
    | cons c cs =>
      have h1 : containsSub pat (cs.drop n) = true := by simpa using h
      exact containsSub_tail _ _ _ (ih cs h1)

theorem digitRun_append (ds : Cs) (hds : ∀ c ∈ ds, c.isDigit = true) :
    ∀ t, (∀ c0, t.head? = some c0 → c0.isDigit = false) →
      digitRun (ds ++ t) = ds.length := by
  induction ds with
  | nil =>
    intro t ht
    cases t with
    | nil => simp [digitRun]
    | cons c cs =>
      have := ht c (by simp)
      simp [digitRun, this]
  | cons c cs ih =>
    intro t ht
    have hc := hds c (by simp)
    simp [digitRun, hc, ih (fun c h => hds c (by simp [h])) t ht]

/-- C4: confirmed.  `find_conditional_end` parses the digit run and
then scans with a depth counter, skipping arbitrarily nested plain
block comments: on a block whose inner content is an m-fold nested
comment around marker-free text, the returned end position is exactly
the closing marker of the versioned block; and when no closing marker
occurs in the buffer the end position is None, so the caller fetches
more input and no text is lost. -/
theorem claim_C4_scanner :
    (∀ ds w rest m, ds ≠ [] → (∀ c ∈ ds, c.isDigit = true) →
      (∀ c ∈ w, c ≠ '/' ∧ c ≠ '*') →
      (∀ c0, (nest m w ++ '*' :: '/' :: rest).head? = some c0 → c0.isDigit = false) →
      find_conditional_end ('/' :: '*' :: '!' :: (ds ++ (nest m w ++ '*' :: '/' :: rest)))
        = (some (3 + ds.length + (nest m w).length), some (3 + ds.length))) ∧
    (∀ s, containsSub ('*' :: ['/']) s = false → (find_conditional_end s).1 = none) := by
  constructor
  · intro ds w rest m hne hds hw hhd
    have hdrop3 : ('/' :: '*' :: '!' :: (ds ++ (nest m w ++ '*' :: '/' :: rest))).drop 3
        = ds ++ (nest m w ++ '*' :: '/' :: rest) := rfl
    have hrun : digitRun (ds ++ (nest m w ++ '*' :: '/' :: rest)) = ds.length :=
      digitRun_append ds hds _ hhd
    have hdropde : ('/' :: '*' :: '!' :: (ds ++ (nest m w ++ '*' :: '/' :: rest))).drop (3 + ds.length)
        = nest m w ++ '*' :: '/' :: rest := by
      have h1 : ('/' :: '*' :: '!' :: (ds ++ (nest m w ++ '*' :: '/' :: rest))).drop (3 + ds.length)
          = (('/' :: '*' :: '!' :: (ds ++ (nest m w ++ '*' :: '/' :: rest))).drop 3).drop ds.length := by
        rw [List.drop_drop]
      rw [h1, hdrop3, List.drop_left]
    unfold find_conditional_end
    rw [hdrop3, hrun, if_neg (by simpa using hne), hdropde]
    rw [scanFrom_nest w hw m rest 0 (3 + ds.length)]
    rw [if_pos rfl]
  · intro s h
    unfold find_conditional_end
    by_cases h0 : digitRun (s.drop 3) = 0
    · rw [if_pos h0]
    · rw [if_neg h0]
      simp only
      cases hscan : scanFrom 0 (3 + digitRun (s.drop 3)) (s.drop (3 + digitRun (s.drop 3))) with
      | none => rfl
      | some e =>
        have h1 := scanFrom_some_hasClose _ _ _ _ hscan
        have h2 := containsSub_of_drop ('*' :: ['/']) (3 + digitRun (s.drop 3)) s h1
        rw [h2] at h
        cases h

/-- Witness for C4 at a concrete doubly nested comment. -/
theorem claim_C4_scanner_witness :
    find_conditional_end ('/' :: '*' :: '!' :: ((("40000").data) ++
        (nest 2 ((" x ").data) ++ '*' :: '/' :: ((";\n").data))))
      = (some (3 + (("40000").data).length + (nest 2 ((" x ").data)).length),
         some (3 + (("40000").data).length)) ∧
    (find_conditional_end (("/*!50001 no close here").data)).1 = none :=
  ⟨claim_C4_scanner.1 (("40000").data) ((" x ").data) ((";\n").data) 2
      (by decide) (by decide) (by decide) (by decide),
    claim_C4_scanner.2 (("/*!50001 no close here").data) (by decide)⟩

end MigTools

namespace MigTools

/-! ## C7: time-zone rewrite lemmas -/

theorem tzMatch_head_fail (c : Char) (r : Cs)
    (h1 : isSpaceC c = false) (h2 : ciEq c 'S' = false) :
    tzMatch (c :: r) = none := by
  unfold tzMatch
  rw [List.dropWhile_cons_of_neg (by rw [h1]; exact Bool.false_ne_true)]
  show (match stripCIKeep ('S' :: ('E' :: ('T' :: []))) (c :: r) with
        | none => none
        | some (setT, r2) => _) = none
  rw [show stripCIKeep ('S' :: ('E' :: ('T' :: []))) (c :: r) = none by
    unfold stripCIKeep
    rw [if_neg (by rw [h2]; exact Bool.false_ne_true)]]

theorem tzSubGo_copy_line (v : Cs) (hv : '\n' ∉ v) :
    ∀ f, v.length + 1 < f → tzSubGo f false (v ++ ['\n']) = v ++ ['\n'] := by
  induction v with
  | nil =>
    intro f hf
    match f, hf with
    | f + 2, _ =>
      show '\n' :: tzSubGo (f + 1) (decide ('\n' = '\n')) [] = ['\n']
      simp [tzSubGo]
  | cons c v2 ih =>
    intro f hf
    match f, hf with
    | f + 1, hf =>
      have hc : c ≠ '\n' := fun h => hv (by simp [h])
      show c :: tzSubGo f (decide (c = '\n')) (v2 ++ ['\n']) = c :: (v2 ++ ['\n'])
      rw [decide_eq_false hc]
      rw [ih (fun h => hv (by simp [h])) f (by simpa using Nat.lt_of_succ_lt_succ hf)]

theorem tzSubGo_true_noMatch (f : Nat) (c : Char) (cs : Cs)
    (hm : tzMatch (c :: cs) = none) (hc : c ≠ '\n') :
    tzSubGo (f + 1) true (c :: cs) = c :: tzSubGo f false cs := by
  simp [tzSubGo, hm, hc]

/-- C7: confirmed at the level of `replace_utc_time_zone`.  The
standalone statement is rewritten with either quote style, and a
single line that is an INSERT statement (first character I, no
embedded newline) passes through unchanged, whatever string data it
carries, because the pattern is anchored at line starts. -/
theorem claim_C7_time_zone :
    (∀ q, q = squo ∨ q = dquo →
      tzSub ((("SET time_zone = ").data) ++ q :: ((("UTC").data) ++ q :: ((";\n").data)))
        = (("SET time_zone = ").data) ++ squo :: ((("+00:00").data) ++ squo :: ((";\n").data))) ∧
    (∀ u, u.head? = some 'I' → '\n' ∉ u →
      tzSub (u ++ ['\n']) = u ++ ['\n']) := by
  constructor
  · intro q hq
    rcases hq with h | h <;> subst h <;> rfl
  · intro u hI hn
    cases u with
    | nil => cases hI
    | cons c0 u2 =>
      have hc0 : c0 = 'I' := by simpa using hI
      subst hc0
      have hn2 : '\n' ∉ u2 := fun h => hn (by simp [h])
      unfold tzSub
      have hl : ('I' :: u2 ++ ['\n']).length + 1 = u2.length + 2 + 1 := by simp
      rw [hl, List.cons_append]
      rw [tzSubGo_true_noMatch (u2.length + 2) 'I' (u2 ++ ['\n'])
        (tzMatch_head_fail 'I' (u2 ++ ['\n']) (by decide) (by decide)) (by decide)]
      rw [tzSubGo_copy_line u2 hn2 (u2.length + 2) (by omega)]

/-- Witness for C7: the INSERT line carrying both a UTC literal and
the statement text as data is untouched; the standalone statement is
rewritten. -/
theorem claim_C7_time_zone_witness :
    tzSub ((("SET time_zone = ").data) ++ dquo :: ((("UTC").data) ++ dquo :: ((";\n").data)))
      = (("SET time_zone = ").data) ++ squo :: ((("+00:00").data) ++ squo :: ((";\n").data)) ∧
    tzSub (((("INSERT INTO t VALUES (").data ++ squo :: (("UTC").data) ++ squo :: ((", ").data)
        ++ squo :: (("SET time_zone = UTC;").data) ++ squo :: ((");").data))) ++ ['\n'])
      = ((("INSERT INTO t VALUES (").data ++ squo :: (("UTC").data) ++ squo :: ((", ").data)
        ++ squo :: (("SET time_zone = UTC;").data) ++ squo :: ((");").data))) ++ ['\n'] :=
  ⟨claim_C7_time_zone.1 dquo (Or.inr rfl),
   claim_C7_time_zone.2 _ (by decide) (by decide)⟩

end MigTools

namespace MigTools

/-! ## Stream machinery: bounds and fuel congruence for `runF` -/

theorem sumLen_append (a b : List Cs) : sumLen (a ++ b) = sumLen a + sumLen b := by
  induction a with
  | nil => simp [sumLen]
  | cons l a2 ih =>
    show l.length + sumLen (a2 ++ b) = l.length + sumLen a2 + sumLen b
    rw [ih]; omega

theorem joinL_cons (l : Cs) (ls : List Cs) : joinL (l :: ls) = l ++ joinL ls := rfl

theorem joinL_length (ls : List Cs) : (joinL ls).length = sumLen ls := by
  induction ls with
  | nil => rfl
  | cons l ls ih =>
    show (l ++ joinL ls).length = l.length + sumLen ls
    simp [ih]

theorem isMarkerAt_length (t : Cs) (h : isMarkerAt t = true) : 3 ≤ t.length := by
  match t, h with
  | a :: b :: c :: r, _ => simp

theorem findMarkerAux_bounds :
    ∀ t i idx, findMarkerAux t i = some idx → i ≤ idx ∧ idx + 3 ≤ i + t.length := by
  intro t
  induction t with
  | nil => intro i idx h; simp [findMarkerAux] at h
  | cons c cs ih =>
    intro i idx h
    unfold findMarkerAux at h
    by_cases hm : isMarkerAt (c :: cs)
    · rw [if_pos hm] at h
      cases h
      have h3 := isMarkerAt_length (c :: cs) hm
      constructor
      · exact Nat.le_refl _
      · omega
    · rw [if_neg hm] at h
      have := ih (i + 1) idx h
      constructor
      · omega
      · simp; omega

theorem findMarker_bounds (line : Cs) (pos idx : Nat)
    (h : findMarker line pos = some idx) : pos ≤ idx ∧ idx + 3 ≤ line.length := by
  unfold findMarker at h
  have h2 := findMarkerAux_bounds (line.drop pos) pos idx h
  rcases h2 with ⟨h3, h4⟩
  constructor
  · exact h3
  · have h5 : (line.drop pos).length = line.length - pos := by simp
    omega

theorem scanFrom_some_bounds_n :
    ∀ n t d k e, t.length ≤ n → scanFrom d k t = some e →
      k ≤ e ∧ e + 2 ≤ k + t.length := by
  intro n
  induction n with
  | zero =>
    intro t d k e hlen h
    have : t = [] := List.length_eq_zero.mp (Nat.le_zero.mp hlen)
    subst this
    simp [scanFrom] at h
  | succ n ih =>
    intro t d k e hlen h
    match t with
    | [] => simp [scanFrom] at h
    | [c] => simp [scanFrom] at h
    | c1 :: c2 :: rest =>
      by_cases h1 : c1 = '/' ∧ c2 = '*'
      · have h3 : scanFrom (d + 1) (k + 2) rest = some e := by
          have heq : scanFrom d k (c1 :: c2 :: rest)
              = scanFrom (d + 1) (k + 2) rest := by
            simp only [scanFrom]; rw [if_pos h1]
          rw [heq] at h; exact h
        have := ih rest (d + 1) (k + 2) e (by simp only [List.length_cons] at hlen; omega) h3
        simp only [List.length_cons]; omega
      · by_cases h2 : c1 = '*' ∧ c2 = '/'
        · have heq : scanFrom d k (c1 :: c2 :: rest)
              = if d = 0 then some k else scanFrom (d - 1) (k + 2) rest := by
            simp only [scanFrom]; rw [if_neg h1, if_pos h2]
          rw [heq] at h
          by_cases hd : d = 0
          · rw [if_pos hd] at h
            cases h
            simp only [List.length_cons]; omega
          · rw [if_neg hd] at h
            have := ih rest (d - 1) (k + 2) e (by simp only [List.length_cons] at hlen; omega) h
            simp only [List.length_cons]; omega
        · have h3 : scanFrom d (k + 1) (c2 :: rest) = some e := by
            have heq : scanFrom d k (c1 :: c2 :: rest)
                = scanFrom d (k + 1) (c2 :: rest) := by
              simp only [scanFrom]; rw [if_neg h1, if_neg h2]
            rw [heq] at h; exact h
          have := ih (c2 :: rest) d (k + 1) e (by simp only [List.length_cons] at hlen ⊢; omega) h3
          simp only [List.length_cons] at this ⊢; omega

theorem find_some_bounds (c : Cs) (e : Nat)
    (h : (find_conditional_end c).1 = some e) :
    4 ≤ e ∧ e + 2 ≤ c.length := by
  unfold find_conditional_end at h
  by_cases h0 : digitRun (c.drop 3) = 0
  · rw [if_pos h0] at h; cases h
  · rw [if_neg h0] at h
    simp only at h
    have hb := scanFrom_some_bounds_n (c.drop (3 + digitRun (c.drop 3))).length
      (c.drop (3 + digitRun (c.drop 3))) 0 (3 + digitRun (c.drop 3)) e
      (Nat.le_refl _) h
    have hlen : (c.drop (3 + digitRun (c.drop 3))).length
        = c.length - (3 + digitRun (c.drop 3)) := by simp
    rcases hb with ⟨hb1, hb2⟩
    constructor
    · omega
    · omega

theorem accumC_found_spec :
    ∀ ls c c2 e ls2, accumC ls c = AccRes.found c2 e ls2 →
      (find_conditional_end c2).1 = some e ∧
      ∃ tk, ls = tk ++ ls2 ∧ c2 = c ++ joinL tk := by
  intro ls
  induction ls with
  | nil =>
    intro c c2 e ls2 h
    rw [accumC] at h
    cases hf : (find_conditional_end c).1 with
    | some e0 =>
      rw [hf] at h
      cases h
      exact ⟨hf, [], rfl, by simp [joinL]⟩
    | none => rw [hf] at h; cases h
  | cons l ls3 ih =>
    intro c c2 e ls2 h
    rw [accumC] at h
    cases hf : (find_conditional_end c).1 with
    | some e0 =>
      rw [hf] at h
      cases h
      exact ⟨hf, [], rfl, by simp [joinL]⟩
    | none =>
      rw [hf] at h
      have := ih (c ++ l) c2 e ls2 h
      rcases this with ⟨h1, tk, h2, h3⟩
      refine ⟨h1, l :: tk, by rw [h2]; rfl, ?_⟩
      rw [h3, joinL_cons]
      simp

theorem accumC_eof_spec :
    ∀ ls c c2, accumC ls c = AccRes.eof c2 →
      c2 = c ++ joinL ls := by
  intro ls
  induction ls with
  | nil =>
    intro c c2 h
    rw [accumC] at h
    cases hf : (find_conditional_end c).1 with
    | some e0 => rw [hf] at h; cases h
    | none =>
      rw [hf] at h
      cases h
      simp [joinL]
  | cons l ls3 ih =>
    intro c c2 h
    rw [accumC] at h
    cases hf : (find_conditional_end c).1 with
    | some e0 => rw [hf] at h; cases h
    | none =>
      rw [hf] at h
      have := ih (c ++ l) c2 h
      rw [this, joinL_cons]
      simp

theorem collapseBlank_len (inner tail : Cs) :
    (collapseBlank inner tail).length ≤ tail.length := by
  unfold collapseBlank
  split
  · split
    · simp
    · simp
  · exact Nat.le_refl _

end MigTools


namespace MigTools

theorem sumLen_cons (l : Cs) (ls : List Cs) :
    sumLen (l :: ls) = l.length + sumLen ls := rfl

theorem runStep_congr (cfg : Config)
    (next1 next2 : CreateState → Cs → Nat → List Cs → Cs)
    (st : CreateState) (line : Cs) (pos : Nat) (ls : List Cs)
    (hnext : ∀ st2 l2 p2 ls2, measR l2 p2 ls2 < measR line pos ls →
      next1 st2 l2 p2 ls2 = next2 st2 l2 p2 ls2) :
    runStep cfg next1 st line pos ls = runStep cfg next2 st line pos ls := by
  unfold runStep
  cases hfind : findMarker line pos with
  | none =>
    dsimp only
    cases ls with
    | nil => rfl
    | cons l ls2 =>
      have hlt : measR l 0 ls2 < measR line pos (l :: ls2) := by
        unfold measR
        rw [sumLen_cons]
        simp only [List.length_cons]
        omega
      dsimp only
      rw [hnext _ l 0 ls2 hlt]
  | some idx =>
    have hb := findMarker_bounds line pos idx hfind
    dsimp only
    by_cases h0 : digitRun (line.drop (idx + 3)) = 0
    · have hlt : measR line (idx + 3) ls < measR line pos ls := by
        unfold measR
        omega
      rw [if_pos h0, if_pos h0, hnext _ line (idx + 3) ls hlt]
    · rw [if_neg h0, if_neg h0]
      cases hacc : accumC ls (line.drop idx) with
      | eof comment => rfl
      | found comment e ls2 =>
        obtain ⟨hfe, tk, hls, hcm⟩ := accumC_found_spec ls _ comment e ls2 hacc
        have hbounds := find_some_bounds comment e hfe
        have hclen : comment.length = (line.length - idx) + sumLen tk := by
          rw [hcm]
          simp [joinL_length]
        have hkey : ∀ t2 : Cs, t2.length ≤ comment.length - (e + 2) →
            measR t2 0 ls2 < measR line pos ls := by
          intro t2 ht2
          unfold measR
          subst hls
          rw [sumLen_append, List.length_append]
          omega
        dsimp only
        by_cases hv : natOfDigits ((comment.drop 3).take (3 + digitRun (comment.drop 3) - 3)) < cfg.thr
        · rw [if_pos hv, if_pos hv]
          by_cases ht : (comment.drop (e + 2)).head? = some ';'
          · rw [if_pos ht, if_pos ht]
            have hdlen : ((comment.drop (e + 2)).drop 1).length ≤ comment.length - (e + 2) := by
              simp
              omega
            by_cases hsemi : (rstripC ((comment.drop (3 + digitRun (comment.drop 3))).take
                (e - (3 + digitRun (comment.drop 3))))).getLast? = some ';'
            · rw [if_pos hsemi, if_pos hsemi]
              rw [hnext _ _ 0 ls2 (hkey _ (Nat.le_trans (collapseBlank_len _ _) hdlen))]
            · rw [if_neg hsemi, if_neg hsemi]
              rw [hnext _ _ 0 ls2 (hkey _ (Nat.le_trans (collapseBlank_len _ _) hdlen))]
          · rw [if_neg ht, if_neg ht]
            rw [hnext _ (comment.drop (e + 2)) 0 ls2 (hkey _ (by simp))]
        · rw [if_neg hv, if_neg hv]
          rw [hnext _ (comment.drop (e + 2)) 0 ls2 (hkey _ (by simp))]

theorem runF_congr (cfg : Config) :
    ∀ n m st line pos ls, measR line pos ls ≤ n → measR line pos ls ≤ m →
      runF cfg n st line pos ls = runF cfg m st line pos ls := by
  intro n
  induction n using Nat.strong_induction_on with
  | _ n ihn =>
    intro m st line pos ls hn hm
    have h1 : 1 ≤ measR line pos ls := by unfold measR; omega
    cases n with
    | zero => omega
    | succ n1 =>
      cases m with
      | zero => omega
      | succ m1 =>
        rw [runF_succ, runF_succ]
        apply runStep_congr
        intro st2 l2 p2 ls2 hlt
        exact ihn n1 (Nat.lt_succ_self n1) m1 st2 l2 p2 ls2 (by omega) (by omega)

end MigTools

namespace MigTools

/-! ## Pass-through of marker-free, rewrite-inert lines -/

theorem containsSub_nil_pat (s : Cs) : containsSub [] s = true := by
  cases s with
  | nil => rfl
  | cons c cs => simp [containsSub, List.isPrefixOf]

theorem containsSub_append_right (pat b : Cs) :
    ∀ a, containsSub pat b = true → containsSub pat (a ++ b) = true := by
  intro a
  induction a with
  | nil => intro h; simpa using h
  | cons c a2 ih => intro h; exact containsSub_tail _ _ _ (ih h)

theorem containsSub_append_left (pat : Cs) :
    ∀ a b, containsSub pat a = true → containsSub pat (a ++ b) = true := by
  intro a
  induction a with
  | nil =>
    intro b h
    have : pat = [] := by simpa [containsSub] using h
    subst this
    exact containsSub_nil_pat b
  | cons c a2 ih =>
    intro b h
    rw [containsSub_cons] at h
    rcases Bool.or_eq_true_iff.mp h with h1 | h1
    · rw [List.cons_append, containsSub_cons]
      have hpre : pat <+: (c :: a2) := List.isPrefixOf_iff_prefix.mp h1
      have hpre2 : pat <+: (c :: a2) ++ b := hpre.trans (List.prefix_append _ _)
      rw [List.isPrefixOf_iff_prefix.mpr (by simpa using hpre2)]
      rfl
    · rw [List.cons_append]
      exact containsSub_tail _ _ _ (ih b h1)

theorem joinL_append (a b : List Cs) : joinL (a ++ b) = joinL a ++ joinL b := by
  induction a with
  | nil => rfl
  | cons l a2 ih => rw [List.cons_append, joinL_cons, joinL_cons, ih, List.append_assoc]

theorem containsSub_of_mem_join (pat : Cs) (L : List Cs) (x : Cs) (hx : x ∈ L)
    (h : containsSub pat x = true) : containsSub pat (joinL L) = true := by
  obtain ⟨A, B, rfl⟩ := List.append_of_mem hx
  rw [joinL_append, joinL_cons]
  exact containsSub_append_right pat (x ++ joinL B) (joinL A)
    (containsSub_append_left pat x (joinL B) h)

theorem splitLines_ne_nil (c : Char) (cs : Cs) : splitLines (c :: cs) ≠ [] := by
  unfold splitLines
  by_cases h : c = '\n'
  · rw [if_pos h]; simp
  · rw [if_neg h]
    cases splitLines cs <;> simp

theorem joinL_splitLines (s : Cs) : joinL (splitLines s) = s := by
  induction s with
  | nil => rfl
  | cons c cs ih =>
    unfold splitLines
    by_cases h : c = '\n'
    · rw [if_pos h, joinL_cons, h]
      rw [ih]
      rfl
    · rw [if_neg h]
      cases hs : splitLines cs with
      | nil =>
        rw [hs] at ih
        have : cs = [] := by simpa [joinL] using ih.symm
        subst this
        simp [joinL]
      | cons l ls =>
        rw [hs, joinL_cons] at ih
        rw [joinL_cons, List.cons_append, ih]

theorem isMarkerAt_isPre (t : Cs) (h : isMarkerAt t = true) :
    (("/*!").data).isPrefixOf t = true := by
  match t, h with
  | c1 :: c2 :: c3 :: r, h =>
    simp only [isMarkerAt, Bool.and_eq_true, decide_eq_true_eq] at h
    obtain ⟨⟨rfl, rfl⟩, rfl⟩ := h
    simp [List.isPrefixOf]

theorem findMarkerAux_of_noMarker :
    ∀ t i, containsSub (("/*!").data) t = false → findMarkerAux t i = none := by
  intro t
  induction t with
  | nil => intro i _; rfl
  | cons c cs ih =>
    intro i h
    rw [containsSub_cons] at h
    have h1 : (("/*!").data).isPrefixOf (c :: cs) = false := by
      cases hp : (("/*!").data).isPrefixOf (c :: cs) with
      | false => rfl
      | true => rw [hp] at h; simp at h
    have h2 : containsSub (("/*!").data) cs = false := by
      cases hp : containsSub (("/*!").data) cs with
      | false => rfl
      | true => rw [hp] at h; simp at h
    unfold findMarkerAux
    have hm : isMarkerAt (c :: cs) = false := by
      cases hmk : isMarkerAt (c :: cs) with
      | false => rfl
      | true => rw [isMarkerAt_isPre _ hmk] at h1; cases h1
    rw [if_neg (by rw [hm]; exact Bool.false_ne_true)]
    exact ih (i + 1) h2

theorem findMarker_of_noMarker (l : Cs) (h : containsSub (("/*!").data) l = false) :
    findMarker l 0 = none := by
  unfold findMarker
  exact findMarkerAux_of_noMarker l 0 h

theorem wout_meta_nil (cfg : Config) (st : CreateState) (chunk : Cs)
    (h : cfg.meta = []) :
    wout cfg st chunk
      = (if cfg.noDrop = true then (dropFilter (tzSub chunk), st)
         else (tzSub chunk, st)) := by
  by_cases hc : chunk = []
  · subst hc
    have h0 : wout cfg st [] = ([], st) := rfl
    have h1 : tzSub ([] : Cs) = [] := rfl
    have h2 : dropFilter ([] : Cs) = [] := rfl
    rw [h0, h1, h2, ite_self]
  · have h0 : wout cfg st chunk
        = (if cfg.noDrop = true
           then (dropFilter (tzSub (enhance cfg.meta cfg.defSch st chunk).1),
                 (enhance cfg.meta cfg.defSch st chunk).2)
           else (tzSub (enhance cfg.meta cfg.defSch st chunk).1,
                 (enhance cfg.meta cfg.defSch st chunk).2)) := by
      unfold wout
      rw [if_neg hc]
    have he : enhance cfg.meta cfg.defSch st chunk = (chunk, st) := by
      unfold enhance
      rw [h]
      exact if_pos rfl
    rw [h0, he]

/-- A marker-free, rewrite-inert line passes `write_out` unchanged. -/
theorem wout_inert (cfg : Config) (st : CreateState) (l : Cs)
    (hmeta : cfg.meta = []) (htz : tzSub l = l)
    (hdrop : cfg.noDrop = false ∨ dropFilter l = l) :
    wout cfg st l = (l, st) := by
  rw [wout_meta_nil cfg st l hmeta, htz]
  rcases hdrop with h | h
  · rw [h, if_neg Bool.false_ne_true]
  · rw [h, ite_self]

/-- The loop writes marker-free, rewrite-inert lines through verbatim. -/
theorem runF_inert (cfg : Config) (hmeta : cfg.meta = []) :
    ∀ ls l st n, measR l 0 ls ≤ n →
      (∀ x ∈ l :: ls, containsSub (("/*!").data) x = false ∧ tzSub x = x ∧
        (cfg.noDrop = false ∨ dropFilter x = x)) →
      runF cfg n st l 0 ls = joinL (l :: ls) := by
  intro ls
  induction ls with
  | nil =>
    intro l st n hn hcond
    have h1 : 1 ≤ measR l 0 [] := by unfold measR; omega
    cases n with
    | zero => omega
    | succ n1 =>
      rw [runF_succ]
      unfold runStep
      obtain ⟨hm, htz, hdrop⟩ := hcond l (by simp)
      rw [findMarker_of_noMarker l hm]
      dsimp only
      rw [wout_inert cfg st (l.drop 0) hmeta (by simpa using htz)
        (by simpa using hdrop)]
      simp [joinL]
  | cons l2 ls2 ih =>
    intro l st n hn hcond
    have h1 : 1 ≤ measR l 0 (l2 :: ls2) := by unfold measR; omega
    cases n with
    | zero => omega
    | succ n1 =>
      rw [runF_succ]
      unfold runStep
      obtain ⟨hm, htz, hdrop⟩ := hcond l (by simp)
      rw [findMarker_of_noMarker l hm]
      dsimp only
      rw [wout_inert cfg st (l.drop 0) hmeta (by simpa using htz)
        (by simpa using hdrop)]
      have hrec : runF cfg n1 st l2 0 ls2 = joinL (l2 :: ls2) := by
        apply ih l2 st n1 _ (fun x hx => hcond x (by simp [hx]))
        unfold measR at hn ⊢
        rw [sumLen_cons] at hn
        simp only [List.length_cons] at hn
        omega
      rw [List.drop_zero, joinL_cons]
      rw [hrec]

theorem splitLines_nil_iff (s : Cs) : splitLines s = [] ↔ s = [] := by
  constructor
  · intro h
    cases s with
    | nil => rfl
    | cons c cs => exact absurd h (splitLines_ne_nil c cs)
  · intro h; subst h; rfl

/-- The whole body is the identity on marker-free, rewrite-inert input. -/
theorem processBody_inert (cfg : Config) (input : Cs) (hmeta : cfg.meta = [])
    (hm : containsSub (("/*!").data) input = false)
    (htz : ∀ l ∈ splitLines input, tzSub l = l)
    (hdrop : cfg.noDrop = false ∨ ∀ l ∈ splitLines input, dropFilter l = l) :
    processBody cfg input = input := by
  unfold processBody bodyLines
  cases hs : splitLines input with
  | nil => rw [(splitLines_nil_iff input).mp hs]
  | cons l ls =>
    have hcond : ∀ x ∈ l :: ls, containsSub (("/*!").data) x = false ∧ tzSub x = x ∧
        (cfg.noDrop = false ∨ dropFilter x = x) := by
      intro x hx
      rw [← hs] at hx
      refine ⟨?_, htz x hx, ?_⟩
      · cases hcx : containsSub (("/*!").data) x with
        | false => rfl
        | true =>
          have := containsSub_of_mem_join (("/*!").data) (splitLines input) x hx hcx
          rw [joinL_splitLines] at this
          rw [this] at hm
          cases hm
      · rcases hdrop with h | h
        · exact Or.inl h
        · exact Or.inr (h x hx)
    dsimp only
    rw [runF_inert cfg hmeta ls l (state0 cfg) (measR l 0 ls) (Nat.le_refl _) hcond]
    have : joinL (l :: ls) = joinL (splitLines input) := by rw [hs]
    rw [this, joinL_splitLines]

/-- C2 amended: re-running the pipeline is not the identity; on
already-normalized text (no versioned markers, every line inert under
the time-zone rewrite) the second application returns exactly the
fixed header prepended to the text, so the output grows by the header
and nothing else changes (in particular no semicolon is duplicated). -/
theorem claim_C2_second_run (t : Cs)
    (hm : containsSub (("/*!").data) t = false)
    (htz : ∀ l ∈ splitLines t, tzSub l = l) :
    fullProcess cfg0 none none t = headerCs ++ t := by
  unfold fullProcess
  rw [processBody_inert cfg0 t rfl hm htz (Or.inl rfl)]
  rfl

/-- Witness for the amended C2 at a concrete one-statement text. -/
theorem claim_C2_second_run_witness :
    fullProcess cfg0 none none (("SELECT 1;\n").data)
      = headerCs ++ (("SELECT 1;\n").data) :=
  claim_C2_second_run (("SELECT 1;\n").data) (by decide) (by decide)

end MigTools

namespace MigTools

/-! ## Line-splitting over concatenation and per-line processing -/

theorem splitLines_cons_nl (cs : Cs) :
    splitLines ('\n' :: cs) = ['\n'] :: splitLines cs := by
  rw [splitLines]
  rw [if_pos rfl]

theorem splitLines_cons_ne (c : Char) (cs : Cs) (hc : c ≠ '\n') :
    splitLines (c :: cs)
      = (match splitLines cs with
         | [] => [[c]]
         | l :: ls => (c :: l) :: ls) := by
  rw [splitLines]
  rw [if_neg hc]

theorem splitLines_line_append (a : Cs) (ha : '\n' ∉ a) :
    ∀ b, splitLines ((a ++ ['\n']) ++ b) = (a ++ ['\n']) :: splitLines b := by
  induction a with
  | nil =>
    intro b
    show splitLines ('\n' :: b) = ['\n'] :: splitLines b
    exact splitLines_cons_nl b
  | cons c a2 ih =>
    intro b
    have hc : c ≠ '\n' := fun h => ha (by simp [h])
    have ha2 : '\n' ∉ a2 := fun h => ha (by simp [h])
    show splitLines (c :: ((a2 ++ ['\n']) ++ b)) = (c :: (a2 ++ ['\n'])) :: splitLines b
    rw [splitLines_cons_ne c _ hc, ih ha2 b]

theorem splitLines_append_endNL :
    ∀ a b, a.getLast? = some '\n' → splitLines (a ++ b) = splitLines a ++ splitLines b := by
  intro a
  induction a with
  | nil => intro b h; simp at h
  | cons c a2 ih =>
    intro b h
    cases a2 with
    | nil =>
      have hc : c = '\n' := by simpa using h
      subst hc
      show splitLines ('\n' :: b) = splitLines ['\n'] ++ splitLines b
      rw [splitLines_cons_nl b]
      rfl
    | cons d a3 =>
      have hlast : (d :: a3).getLast? = some '\n' := by
        rw [List.getLast?_cons_cons] at h
        exact h
      by_cases hc : c = '\n'
      · subst hc
        show splitLines ('\n' :: (d :: a3 ++ b)) = splitLines ('\n' :: (d :: a3)) ++ splitLines b
        rw [splitLines_cons_nl, splitLines_cons_nl, ih b hlast]
        rfl
      · show splitLines (c :: (d :: a3 ++ b)) = splitLines (c :: (d :: a3)) ++ splitLines b
        rw [splitLines_cons_ne c _ hc, splitLines_cons_ne c _ hc, ih b hlast]
        cases hs : splitLines (d :: a3) with
        | nil => exact absurd hs (splitLines_ne_nil d a3)
        | cons l ls =>
          rfl

theorem accumC_found_direct (ls : List Cs) (c : Cs) (e : Nat)
    (h : (find_conditional_end c).1 = some e) :
    accumC ls c = AccRes.found c e ls := by
  cases ls with
  | nil => rw [accumC, h]
  | cons l ls2 => rw [accumC, h]

theorem wout_nil_lemma (cfg : Config) (st : CreateState) : wout cfg st [] = ([], st) := rfl

/-- Processing a line with no marker: write the transformed line and
continue with the next line at full measure. -/
theorem bodyLines_cons_general (cfg : Config) (hmeta : cfg.meta = [])
    (l : Cs) (hm : findMarker l 0 = none) :
    ∀ ls, bodyLines cfg (state0 cfg) (l :: ls)
      = (if cfg.noDrop = true then dropFilter (tzSub l) else tzSub l)
        ++ bodyLines cfg (state0 cfg) ls := by
  intro ls
  show runF cfg (measR l 0 ls) (state0 cfg) l 0 ls = _
  have h1 : measR l 0 ls = (l.length + sumLen ls + ls.length) + 1 := by
    unfold measR
    omega
  rw [h1, runF_succ]
  unfold runStep
  rw [hm]
  dsimp only
  rw [List.drop_zero]
  rw [wout_meta_nil cfg (state0 cfg) l hmeta]
  cases hnd : cfg.noDrop with
  | false =>
    rw [if_neg Bool.false_ne_true, if_neg Bool.false_ne_true]
    dsimp only
    cases ls with
    | nil => rfl
    | cons l2 ls2 =>
      show tzSub l ++ runF cfg (l.length + sumLen (l2 :: ls2) + (l2 :: ls2).length)
          (state0 cfg) l2 0 ls2 = tzSub l ++ runF cfg (measR l2 0 ls2) (state0 cfg) l2 0 ls2
      congr 1
      apply runF_congr
      · unfold measR
        rw [sumLen_cons]
        simp only [List.length_cons]
        omega
      · exact Nat.le_refl _
  | true =>
    rw [if_pos rfl, if_pos rfl]
    dsimp only
    cases ls with
    | nil => rfl
    | cons l2 ls2 =>
      show dropFilter (tzSub l) ++ runF cfg (l.length + sumLen (l2 :: ls2) + (l2 :: ls2).length)
          (state0 cfg) l2 0 ls2
          = dropFilter (tzSub l) ++ runF cfg (measR l2 0 ls2) (state0 cfg) l2 0 ls2
      congr 1
      apply runF_congr
      · unfold measR
        rw [sumLen_cons]
        simp only [List.length_cons]
        omega
      · exact Nat.le_refl _

/-- The guarded DROP line of C8. -/
def guardLine : Cs := ("/*!50001 DROP VIEW IF EXISTS `v`; */\n").data

/-- The unguarded DROP line of C8. -/
def plainDropLine : Cs := ("DROP VIEW IF EXISTS `v`;\n").data

/-- Processing the guarded DROP line under DROP suppression: the inner
statement is never written (the unwrap branch only writes when the
closing marker is followed by a semicolon), and the newline after the
closing marker survives as a blank line. -/
theorem bodyLines_guarded (ls : List Cs) :
    bodyLines cfgND (state0 cfgND) (guardLine :: ls)
      = '\n' :: bodyLines cfgND (state0 cfgND) ls := by
  show runF cfgND (measR guardLine 0 ls) (state0 cfgND) guardLine 0 ls = _
  have h1 : measR guardLine 0 ls = ((36 + sumLen ls + ls.length + 1) + 1) := by
    unfold measR
    have : guardLine.length = 37 := by decide
    omega
  rw [h1, runF_succ]
  unfold runStep
  rw [(by decide : findMarker guardLine 0 = some 0)]
  dsimp only
  rw [if_neg (by decide : ¬ digitRun (guardLine.drop (0 + 3)) = 0)]
  rw [List.drop_zero]
  rw [accumC_found_direct ls guardLine 34 (by decide)]
  dsimp only
  rw [if_pos (by decide :
    natOfDigits ((guardLine.drop 3).take (3 + digitRun (guardLine.drop 3) - 3)) < cfgND.thr)]
  rw [if_neg (by decide : ¬ (guardLine.drop (34 + 2)).head? = some ';')]
  rw [Nat.sub_self, List.take_zero, wout_nil_lemma]
  dsimp only
  rw [(by decide : guardLine.drop (34 + 2) = ['\n'])]
  rw [runF_succ]
  unfold runStep
  rw [(by decide : findMarker ['\n'] 0 = none)]
  dsimp only
  rw [List.drop_zero]
  rw [(rfl : wout cfgND (state0 cfgND) ['\n'] = (['\n'], state0 cfgND))]
  cases ls with
  | nil => rfl
  | cons l2 ls2 =>
    dsimp only
    show '\n' :: runF cfgND (36 + sumLen (l2 :: ls2) + (l2 :: ls2).length) (state0 cfgND) l2 0 ls2
        = '\n' :: runF cfgND (measR l2 0 ls2) (state0 cfgND) l2 0 ls2
    congr 1
    apply runF_congr
    · unfold measR
      rw [sumLen_cons]
      simp only [List.length_cons]
      omega
    · exact Nat.le_refl _

/-- C8 amended: under DROP suppression the guarded and unguarded forms
both lose the DROP statement itself, but they do not leave identical
residues: the newline that followed the guarded form's closing marker
survives as a blank line, while the unguarded form's line is removed
together with its newline.  For any remaining text the two outputs
differ exactly by that one blank line. -/
theorem claim_C8_drop_residue (R : Cs) :
    processBody cfgND (guardLine ++ R) = '\n' :: processBody cfgND R ∧
    processBody cfgND (plainDropLine ++ R) = processBody cfgND R := by
  constructor
  · unfold processBody
    have hshape : guardLine ++ R
        = ((("/*!50001 DROP VIEW IF EXISTS `v`; */").data) ++ ['\n']) ++ R := rfl
    rw [hshape, splitLines_line_append _ (by decide) R]
    exact bodyLines_guarded (splitLines R)
  · unfold processBody
    have hshape : plainDropLine ++ R
        = ((("DROP VIEW IF EXISTS `v`;").data) ++ ['\n']) ++ R := rfl
    rw [hshape, splitLines_line_append _ (by decide) R]
    rw [(by decide : (("DROP VIEW IF EXISTS `v`;").data ++ ['\n']) = plainDropLine)]
    rw [bodyLines_cons_general cfgND rfl plainDropLine (by decide) (splitLines R)]
    rw [(by decide : (if cfgND.noDrop = true then dropFilter (tzSub plainDropLine)
        else tzSub plainDropLine) = ([] : Cs))]
    rfl

end MigTools

namespace MigTools

/-! ## C9: a marker with no digits is literal text -/

theorem stripCIKeep_some_len :
    ∀ p s m r, stripCIKeep p s = some (m, r) → s.length = p.length + r.length := by
  intro p
  induction p with
  | nil =>
    intro s m r h
    rw [stripCIKeep] at h
    cases h
    simp
  | cons pc pp ih =>
    intro s m r h
    cases s with
    | nil => simp [stripCIKeep] at h
    | cons c cs =>
      rw [stripCIKeep] at h
      by_cases hci : ciEq c pc = true
      · rw [if_pos hci] at h
        cases hrec : stripCIKeep pp cs with
        | none => rw [hrec] at h; cases h
        | some p2 =>
          obtain ⟨m2, r2⟩ := p2
          rw [hrec] at h
          simp only [Option.some.injEq, Prod.mk.injEq] at h
          obtain ⟨hm, hr⟩ := h
          subst hr
          have := ih cs m2 r2 hrec
          simp only [List.length_cons]
          omega
      · rw [if_neg hci] at h
        cases h

theorem tzMatch_some_len (s rep rest : Cs) (h : tzMatch s = some (rep, rest)) :
    13 ≤ s.length := by
  unfold tzMatch at h
  dsimp only at h
  cases h1 : stripCIKeep (("SET").data) (s.dropWhile isSpaceC) with
  | none => rw [h1] at h; cases h
  | some p1 =>
    obtain ⟨m1, r2⟩ := p1
    rw [h1] at h
    dsimp only at h
    by_cases hw : r2.takeWhile isSpaceC = []
    · rw [if_pos hw] at h; cases h
    · rw [if_neg hw] at h
      cases h2 : stripCIKeep (("time_zone").data) (r2.dropWhile isSpaceC) with
      | none => rw [h2] at h; cases h
      | some p2 =>
        have l1 := stripCIKeep_some_len _ _ _ _ h1
        have l2 := stripCIKeep_some_len _ _ _ _ h2
        have l3 : (s.takeWhile isSpaceC).length + (s.dropWhile isSpaceC).length
            = s.length := by
          rw [← List.length_append, List.takeWhile_append_dropWhile]
        have l4 : (r2.takeWhile isSpaceC).length + (r2.dropWhile isSpaceC).length
            = r2.length := by
          rw [← List.length_append, List.takeWhile_append_dropWhile]
        have l5 : 1 ≤ (r2.takeWhile isSpaceC).length := by
          cases hw2 : r2.takeWhile isSpaceC with
          | nil => exact absurd hw2 hw
          | cons x xs => simp
        have l6 : (("SET").data).length = 3 := rfl
        have l7 : (("time_zone").data).length = 9 := rfl
        omega

theorem tzMatch_none_short (s : Cs) (h : s.length < 13) : tzMatch s = none := by
  cases htm : tzMatch s with
  | none => rfl
  | some p =>
    obtain ⟨rep, rest⟩ := p
    have := tzMatch_some_len s rep rest htm
    omega

/-- C9: confirmed.  A marker with no following digit is treated as
literal text: the three marker characters are written unchanged,
scanning resumes after them, no error is raised, and ordinary
dash, hash and plain block comments pass through untouched. -/
theorem claim_C9_marker_no_digits (c : Char) (hd : c.isDigit = false) :
    processBody cfg0 ((("-- cmt\n# cmt\n/* cmt */\n").data)
        ++ ('/' :: '*' :: '!' :: c :: ['\n']))
      = (("-- cmt\n# cmt\n/* cmt */\n").data) ++ ('/' :: '*' :: '!' :: c :: ['\n']) := by
  by_cases hc : c = '\n'
  · subst hc
    decide
  · have hnmem : '\n' ∉ ['/', '*', '!', c] := by
      intro hmem
      simp only [List.mem_cons, List.not_mem_nil, or_false] at hmem
      rcases hmem with h | h | h | h
      · cases h
      · cases h
      · cases h
      · exact hc h.symm
    unfold processBody
    rw [splitLines_append_endNL (("-- cmt\n# cmt\n/* cmt */\n").data) _ (by decide)]
    have hsplit2 : splitLines ('/' :: '*' :: '!' :: c :: ['\n'])
        = [('/' :: '*' :: '!' :: c :: ['\n'])] := by
      have := splitLines_line_append ['/', '*', '!', c] hnmem []
      simpa using this
    rw [hsplit2]
    rw [(by decide : splitLines ((("-- cmt\n# cmt\n/* cmt */\n").data))
        = [(("-- cmt\n").data), (("# cmt\n").data), (("/* cmt */\n").data)])]
    simp only [List.cons_append, List.nil_append]
    rw [bodyLines_cons_general cfg0 rfl (("-- cmt\n").data) (by decide)]
    rw [bodyLines_cons_general cfg0 rfl (("# cmt\n").data) (by decide)]
    rw [bodyLines_cons_general cfg0 rfl (("/* cmt */\n").data) (by decide)]
    rw [(by decide : (if cfg0.noDrop = true then dropFilter (tzSub ((("-- cmt\n").data)))
        else tzSub ((("-- cmt\n").data))) = (("-- cmt\n").data))]
    rw [(by decide : (if cfg0.noDrop = true then dropFilter (tzSub ((("# cmt\n").data)))
        else tzSub ((("# cmt\n").data))) = (("# cmt\n").data))]
    rw [(by decide : (if cfg0.noDrop = true then dropFilter (tzSub ((("/* cmt */\n").data)))
        else tzSub ((("/* cmt */\n").data))) = (("/* cmt */\n").data))]
    have hlast : bodyLines cfg0 (state0 cfg0) [('/' :: '*' :: '!' :: c :: ['\n'])]
        = '/' :: '*' :: '!' :: c :: ['\n'] := by
      show runF cfg0 (measR ('/' :: '*' :: '!' :: c :: ['\n']) 0 [])
          (state0 cfg0) ('/' :: '*' :: '!' :: c :: ['\n']) 0 [] = _
      have h1 : measR ('/' :: '*' :: '!' :: c :: ['\n']) 0 [] = 5 + 1 := by
        unfold measR
        simp [sumLen]
      rw [h1, runF_succ]
      unfold runStep
      have hfm : findMarker ('/' :: '*' :: '!' :: c :: ['\n']) 0 = some 0 := rfl
      simp only [hfm]
      have hdr : digitRun (('/' :: '*' :: '!' :: c :: ['\n']).drop (0 + 3)) = 0 := by
        show digitRun (c :: ['\n']) = 0
        unfold digitRun
        rw [if_neg (by rw [hd]; exact Bool.false_ne_true)]
      rw [if_pos hdr]
      have htk : List.take (0 + 3 - 0) (List.drop 0 ['/', '*', '!', c, '\n'])
          = ['/', '*', '!'] := rfl
      rw [htk]
      have hw1 : wout cfg0 (state0 cfg0) ['/', '*', '!']
          = (['/', '*', '!'], state0 cfg0) := rfl
      rw [hw1]
      show ['/', '*', '!'] ++ runStep cfg0 (runF cfg0 4) (state0 cfg0)
          ['/', '*', '!', c, '\n'] (0 + 3) [] = ['/', '*', '!', c, '\n']
      unfold runStep
      have hfm2 : findMarker ['/', '*', '!', c, '\n'] (0 + 3) = none := rfl
      simp only [hfm2]
      have hdrop3 : List.drop (0 + 3) ['/', '*', '!', c, '\n'] = c :: ['\n'] := rfl
      rw [hdrop3]
      have htzlast : tzSub (c :: ['\n']) = c :: ['\n'] := by
        unfold tzSub
        have hlen2 : (c :: ['\n']).length + 1 = 2 + 1 := by simp
        rw [hlen2]
        rw [tzSubGo_true_noMatch 2 c ['\n'] (tzMatch_none_short _ (by simp)) hc]
        have hcl : tzSubGo 2 false ['\n'] = ['\n'] :=
          tzSubGo_copy_line [] (by simp) 2 (by decide)
        rw [hcl]
      rw [wout_inert cfg0 (state0 cfg0) (c :: ['\n']) rfl htzlast (Or.inl rfl)]
      rfl
    rw [hlast]
    rfl

/-! ## C6: the post/bash augmentation only inserts the missing tokens. -/

theorem take_len_append (a b : Cs) : (a ++ b).take a.length = a := by
  induction a with
  | nil => rfl
  | cons c a2 ih =>
    simp only [List.cons_append, List.length_cons, List.take_succ_cons, ih]

set_option maxHeartbeats 1600000 in
theorem joinL_splitLinesPy (s : Cs) : joinL (splitLinesPy s) = s := by
  induction s using splitLinesPy.induct with
  | case1 => rfl
  | case2 cs ih =>
    show joinL (['\r', '\n'] :: splitLinesPy cs) = '\r' :: '\n' :: cs
    rw [joinL_cons, ih]
    rfl
  | case3 c cs hx h ih =>
    rw [splitLinesPy.eq_def]
    split
    · next x heq => simp at heq
    · next x cs2 heq =>
      injection heq with h1 h2
      exact (hx cs2 h1 h2).elim
    · next x c2 cs2 hx2 heq =>
      injection heq with h1 h2
      subst h1
      subst h2
      rw [if_pos h, joinL_cons, ih]
      rfl
  | case4 c cs hx h hnil ih =>
    rw [splitLinesPy.eq_def]
    split
    · next x heq => simp at heq
    · next x cs2 heq =>
      injection heq with h1 h2
      exact (hx cs2 h1 h2).elim
    · next x c2 cs2 hx2 heq =>
      injection heq with h1 h2
      subst h1
      subst h2
      rw [if_neg h, hnil]
      rw [hnil] at ih
      rw [← ih]
      rfl
  | case5 c cs hx h l ls hcons ih =>
    rw [splitLinesPy.eq_def]
    split
    · next x heq => simp at heq
    · next x cs2 heq =>
      injection heq with h1 h2
      exact (hx cs2 h1 h2).elim
    · next x c2 cs2 hx2 heq =>
      injection heq with h1 h2
      subst h1
      subst h2
      rw [if_neg h, hcons]
      rw [hcons] at ih
      rw [joinL_cons, ← ih, joinL_cons]
      rfl


theorem joinL_dropLast_last : ∀ (l : List Cs) (L : Cs), l.getLast? = some L →
    joinL l = joinL l.dropLast ++ L := by
  intro l
  induction l with
  | nil => intro L h; cases h
  | cons x xs ih =>
    intro L h
    cases xs with
    | nil =>
      simp only [List.getLast?_singleton, Option.some.injEq] at h
      subst h
      simp [joinL]
    | cons y ys =>
      rw [List.getLast?_cons_cons] at h
      have h2 := ih L h
      rw [joinL_cons, h2, List.dropLast_cons₂, joinL_cons, List.append_assoc]

theorem findIdx_split (p : Char → Bool) :
    ∀ (l : Cs) (i : Nat), l.findIdx? p = some i →
      ∃ c, p c = true ∧ l = l.take i ++ c :: l.drop (i + 1) := by
  intro l
  induction l with
  | nil => intro i h; simp [List.findIdx?_nil] at h
  | cons x xs ih =>
    intro i h
    rw [List.findIdx?_cons] at h
    by_cases hp : p x
    · rw [if_pos hp] at h
      simp only [Option.some.injEq] at h
      subst h
      exact ⟨x, hp, rfl⟩
    · rw [if_neg hp] at h
      rw [List.findIdx?_start_succ] at h
      cases hf : xs.findIdx? p with
      | none => rw [hf] at h; simp at h
      | some j =>
        rw [hf] at h
        simp at h
        subst h
        obtain ⟨c, hc, hx⟩ := ih j hf
        refine ⟨c, hc, ?_⟩
        conv_lhs => rw [hx]
        rfl

theorem coreOf_nlOf (rest : Cs) : coreOf rest ++ nlOf rest = rest := by
  unfold coreOf nlOf
  split
  · next t heq =>
    have h1 : rest = t.reverse ++ ['\r', '\n'] := by
      have h2 := congrArg List.reverse heq
      simpa using h2
    rw [h1]
    have h3 : (t.reverse ++ ['\r', '\n']).length - List.length ['\r', '\n']
        = t.reverse.length := by simp
    rw [h3]
    rw [take_len_append]
  · next t hne heq =>
    have h1 : rest = t.reverse ++ ['\n'] := by
      have h2 := congrArg List.reverse heq
      simpa using h2
    rw [h1]
    have h3 : (t.reverse ++ ['\n']).length - List.length ['\n']
        = t.reverse.length := by simp
    rw [h3]
    rw [take_len_append]
  · next hne1 hne2 =>
    simp [List.take_length]

theorem aug_post_last_none (e : Cs) (rf : Option Cs) (coll : Cs) (full : Cs)
    (h : (splitLinesPy full).getLast? = none) :
    aug_post e rf coll full = full := by
  unfold aug_post
  simp only [h]

theorem aug_post_last_some (e : Cs) (rf : Option Cs) (coll : Cs) (full L : Cs)
    (h : (splitLinesPy full).getLast? = some L) :
    aug_post e rf coll full
      = joinL (splitLinesPy full).dropLast ++ augLast e rf coll L := by
  unfold aug_post
  simp only [h]

theorem lastAdds_last_none (e : Cs) (rf : Option Cs) (coll : Cs) (full : Cs)
    (h : (splitLinesPy full).getLast? = none) :
    lastAdds e rf coll full = [] := by
  unfold lastAdds
  simp only [h]

theorem lastAdds_no_paren (e : Cs) (rf : Option Cs) (coll : Cs) (full L : Cs)
    (h1 : (splitLinesPy full).getLast? = some L)
    (h2 : L.findIdx? (fun c => c = ')') = none) :
    lastAdds e rf coll full = [] := by
  unfold lastAdds
  simp only [h1, h2]

theorem lastAdds_paren (e : Cs) (rf : Option Cs) (coll : Cs) (full L : Cs) (i : Nat)
    (h1 : (splitLinesPy full).getLast? = some L)
    (h2 : L.findIdx? (fun c => c = ')') = some i) :
    lastAdds e rf coll full = addsOf e rf coll (L.drop (i + 1)) := by
  unfold lastAdds
  simp only [h1, h2]

theorem augLast_no_paren (e : Cs) (rf : Option Cs) (coll : Cs) (L : Cs)
    (h : L.findIdx? (fun c => c = ')') = none) :
    augLast e rf coll L = L := by
  unfold augLast
  simp only [h]

theorem augLast_paren (e : Cs) (rf : Option Cs) (coll : Cs) (L : Cs) (i : Nat)
    (h : L.findIdx? (fun c => c = ')') = some i) :
    augLast e rf coll L
      = L.take i ++ ')' ::
          ((if (rstripC (coreOf (L.drop (i + 1)))).getLast? == some ';' then
              match rfindIdx ';' (coreOf (L.drop (i + 1))) with
              | some sp =>
                (coreOf (L.drop (i + 1))).take sp
                  ++ addsOf e rf coll (L.drop (i + 1))
                  ++ (coreOf (L.drop (i + 1))).drop sp
              | none => coreOf (L.drop (i + 1)) ++ addsOf e rf coll (L.drop (i + 1))
            else coreOf (L.drop (i + 1)) ++ addsOf e rf coll (L.drop (i + 1)))
            ++ nlOf (L.drop (i + 1))) := by
  unfold augLast
  simp only [h]

/-- C6: corrected.  The post/bash `enhance_create_table` is append-only:
the statement text splits as `u ++ v` with the output `u ++ adds ++ v`,
where `adds` is exactly the computed missing-token additions; when the
additions are empty (every token already present) the statement passes
byte-for-byte and re-running the augmentation is a no-op.  The root
variant instead rebuilds the closing line (see the counterexample). -/
theorem claim_C6_append_only (e : Cs) (rf : Option Cs) (coll : Cs) (full : Cs) :
    (∃ u v, full = u ++ v ∧
      aug_post e rf coll full = u ++ lastAdds e rf coll full ++ v) ∧
    (lastAdds e rf coll full = [] →
      aug_post e rf coll full = full ∧
      aug_post e rf coll (aug_post e rf coll full) = aug_post e rf coll full) := by
  have main : ∃ u v, full = u ++ v ∧
      aug_post e rf coll full = u ++ lastAdds e rf coll full ++ v := by
    cases hL : (splitLinesPy full).getLast? with
    | none =>
      refine ⟨full, [], by simp, ?_⟩
      rw [aug_post_last_none e rf coll full hL, lastAdds_last_none e rf coll full hL]
      simp
    | some L =>
      have hfull : full = joinL (splitLinesPy full).dropLast ++ L := by
        conv_lhs => rw [← joinL_splitLinesPy full]
        exact joinL_dropLast_last _ L hL
      cases hI : L.findIdx? (fun c => c = ')') with
      | none =>
        refine ⟨full, [], by simp, ?_⟩
        rw [aug_post_last_some e rf coll full L hL, augLast_no_paren e rf coll L hI,
            lastAdds_no_paren e rf coll full L hL hI, ← hfull]
        simp
      | some i =>
        obtain ⟨c, hc, hsplit⟩ := findIdx_split _ L i hI
        have hcc : c = ')' := by simpa using hc
        subst hcc
        have hDeq : L.drop (i + 1)
            = coreOf (L.drop (i + 1)) ++ nlOf (L.drop (i + 1)) :=
          (coreOf_nlOf (L.drop (i + 1))).symm
        rw [aug_post_last_some e rf coll full L hL, augLast_paren e rf coll L i hI,
            lastAdds_paren e rf coll full L i hL hI]
        by_cases hsc : ((rstripC (coreOf (L.drop (i + 1)))).getLast? == some ';') = true
        · rw [if_pos hsc]
          cases hrf : rfindIdx ';' (coreOf (L.drop (i + 1))) with
          | none =>
            simp only [hrf]
            refine ⟨joinL (splitLinesPy full).dropLast ++ L.take i ++ [')']
                ++ coreOf (L.drop (i + 1)), nlOf (L.drop (i + 1)), ?_, ?_⟩
            · conv_lhs => rw [hfull, hsplit, hDeq]
              simp [List.append_assoc]
            · simp [List.append_assoc]
          | some sp =>
            simp only [hrf]
            have hCsp : coreOf (L.drop (i + 1))
                = (coreOf (L.drop (i + 1))).take sp ++ (coreOf (L.drop (i + 1))).drop sp :=
              (List.take_append_drop sp (coreOf (L.drop (i + 1)))).symm
            refine ⟨joinL (splitLinesPy full).dropLast ++ L.take i ++ [')']
                ++ (coreOf (L.drop (i + 1))).take sp,
                (coreOf (L.drop (i + 1))).drop sp ++ nlOf (L.drop (i + 1)), ?_, ?_⟩
            · conv_lhs => rw [hfull, hsplit, hDeq, hCsp]
              simp only [List.append_assoc, List.cons_append, List.nil_append]
            · simp [List.append_assoc]
        · rw [if_neg hsc]
          refine ⟨joinL (splitLinesPy full).dropLast ++ L.take i ++ [')']
              ++ coreOf (L.drop (i + 1)), nlOf (L.drop (i + 1)), ?_, ?_⟩
          · conv_lhs => rw [hfull, hsplit, hDeq]
            simp [List.append_assoc]
          · simp [List.append_assoc]
  refine ⟨main, fun h0 => ?_⟩
  obtain ⟨u, v, huv, haug⟩ := main
  rw [h0] at haug
  simp only [List.nil_append, List.append_nil] at haug
  have h1 : aug_post e rf coll full = full := by rw [haug, ← huv]
  refine ⟨h1, ?_⟩
  rw [h1]
  exact h1

/-- Witness for C6: a statement already carrying ENGINE, DEFAULT
CHARSET and COLLATE (and no ROW_FORMAT requested) is left unchanged,
and re-running the augmentation is a no-op. -/
theorem claim_C6_append_only_witness :
    aug_post (("InnoDB").data) none (("utf8mb4_general_ci").data)
        (("CREATE TABLE `t` (\n  `id` int\n) ENGINE=MyISAM DEFAULT CHARSET=latin1 COLLATE=latin1_swedish_ci;\n").data)
      = (("CREATE TABLE `t` (\n  `id` int\n) ENGINE=MyISAM DEFAULT CHARSET=latin1 COLLATE=latin1_swedish_ci;\n").data) ∧
    aug_post (("InnoDB").data) none (("utf8mb4_general_ci").data)
        (aug_post (("InnoDB").data) none (("utf8mb4_general_ci").data)
          (("CREATE TABLE `t` (\n  `id` int\n) ENGINE=MyISAM DEFAULT CHARSET=latin1 COLLATE=latin1_swedish_ci;\n").data))
      = aug_post (("InnoDB").data) none (("utf8mb4_general_ci").data)
          (("CREATE TABLE `t` (\n  `id` int\n) ENGINE=MyISAM DEFAULT CHARSET=latin1 COLLATE=latin1_swedish_ci;\n").data) :=
  (claim_C6_append_only (("InnoDB").data) none (("utf8mb4_general_ci").data)
      (("CREATE TABLE `t` (\n  `id` int\n) ENGINE=MyISAM DEFAULT CHARSET=latin1 COLLATE=latin1_swedish_ci;\n").data)).2
    (by decide)

/-! ## C10: the fixed header comes first and the output is never the input. -/

/-- Witness for C9 at a concrete non-digit character. -/
theorem claim_C9_marker_no_digits_witness :
    processBody cfg0 ((("-- cmt\n# cmt\n/* cmt */\n").data)
        ++ ('/' :: '*' :: '!' :: 'x' :: ['\n']))
      = (("-- cmt\n# cmt\n/* cmt */\n").data) ++ ('/' :: '*' :: '!' :: 'x' :: ['\n']) :=
  claim_C9_marker_no_digits 'x' (by decide)

end MigTools
